import Mathlib

/-!
Shallow embedding of the ferret-js lowering stage (`src/compile.js`):
the constant pool, the per-function register allocator, expression and
statement lowering, the basic-block builder state machine, and the
program compiler.  JS instructions are string arrays (for example
`['LOAD', evaled, register]`), so instructions are embedded as
`List String`; JS exceptions become `Except CErr`; the mutable
`FunctionCompiler`/`Block` objects become explicitly threaded state.
-/

namespace Ferret

/-- An instruction is an opcode followed by its operands, exactly as the
JS code builds arrays such as `['LOAD', evaled, register]`. -/
abbrev Instr := List String

deriving instance DecidableEq for Except

/-- A basic block: label, append-only instruction list, successor labels. -/
structure Block where
  label : String
  instructions : List Instr
  successors : List String
deriving DecidableEq

/-- Mirrors `new Block(label)`. -/
def Block.new (label : String) : Block :=
  { label := label, instructions := [], successors := [] }

/-- Mirrors `block.instructions.push(instr)`. -/
def pushInstr (b : Block) (i : Instr) : Block :=
  { b with instructions := b.instructions ++ [i] }

/-- The constant pool accumulator (`class Constants`): stored string
values and their symbols, in creation order. -/
structure Constants where
  data : List String
  symbols : List String
deriving DecidableEq

/-- The symbol naming scheme: `@.` followed by the decimal index. -/
def symName (n : Nat) : String := "@." ++ Nat.repr n

/-- Mirrors `Constants.store`: `this.data.push(constant)` returns the new
length, so the symbol index is the number of constants stored before. -/
def Constants.store (c : Constants) (constant : String) : String × Constants :=
  let symbol := symName c.data.length
  (symbol, { data := c.data ++ [constant], symbols := c.symbols ++ [symbol] })

/-- Result of `Constants.compile`: the flat byte buffer and the
symbol-to-offset table. -/
structure CompiledConstants where
  memory : List Nat
  offsets : List (String × Nat)
deriving DecidableEq

/-- One byte per character, `charCodeAt` truncated by the `Uint8Array`
store to its low 8 bits. -/
def stringBytes (s : String) : List Nat :=
  s.data.map (fun ch => ch.toNat % 256)

/-- The loop body of `Constants.compile`: walk the (value, symbol) pairs
keeping the running pointer, record each symbol's offset, append bytes. -/
def compileGo : List (String × String) → Nat → List Nat × List (String × Nat)
  | [], _ => ([], [])
  | (string, symbol) :: rest, ptr =>
    let (mem, offs) := compileGo rest (ptr + string.length)
    (stringBytes string ++ mem, (symbol, ptr) :: offs)

/-- Mirrors `Constants.compile`. -/
def Constants.compile (c : Constants) : CompiledConstants :=
  let (memory, offsets) := compileGo (c.data.zip c.symbols) 0
  { memory := memory, offsets := offsets }

/-- Literal payloads consumed by `compileLiteral`: the raw token
`'\NUL'`, a `{type:'number'}` node or a `{type:'string'}` node. -/
inductive Literal where
  | nul : Literal
  | num (value : String) : Literal
  | str (value : String) : Literal

mutual
/-- The node shapes accepted by `compileExpr`: either a node whose
`type` is `'rvalue'`, or any other node, whose `value` field is then
dispatched on. -/
inductive Expr where
  | rvalue (v : Rv) : Expr
  | node (value : Val) : Expr

/-- The shapes `compileExpr` dispatches on after unwrapping. -/
inductive Val where
  | derefExpr (value : Expr) : Val
  | addExpr (op1 op2 : Expr) : Val
  | subExpr (op1 op2 : Expr) : Val
  | mulExpr (op1 op2 : Expr) : Val
  | divExpr (op1 op2 : Expr) : Val
  | eqExpr (op1 op2 : Expr) : Val
  | callExpr (identifier : String) (args : List Expr) : Val
  | rvalueVal (v : Rv) : Val

/-- The payload of an rvalue node: a bare name string, a literal node,
or a further wrapper node whose `value` is compiled recursively. -/
inductive Rv where
  | str (s : String) : Rv
  | lit (l : Literal) : Rv
  | wrapped (value : Expr) : Rv
end

/-- Statement-level lvalues: `text | derefLvalue{value: lvalue}`. -/
inductive Lvalue where
  | name (s : String) : Lvalue
  | deref (value : Lvalue) : Lvalue

/-- One statement of a function body. -/
inductive Line where
  | labelDef (value : String) : Line
  | assignment (lvalue : Lvalue) (expr : Expr) : Line
  | ptrAssignment (lvalue : Lvalue) (expr : Expr) : Line
  | ret (value : Expr) : Line
  | branch (condition : Expr) (label1 label2 : String) : Line
  | write (data length : Expr) : Line
  | expr (value : Val) : Line

/-- An AST function definition. -/
structure Definition where
  outType : String
  identifier : String
  inTypes : List String
  lines : List Line

/-- The compile-time failures thrown by the JS code. -/
inductive CErr where
  | duplicateLabel (label : String) : CErr
  | fallthroughBlock (label : String) : CErr
  | unreachableCode (label : String) : CErr
  | danglingLabel (label : String) : CErr
  | undefinedFunction (name : String) : CErr
  | unknownStatement (t : String) : CErr
  | duplicateDefinition (name : String) : CErr
deriving DecidableEq

/-- The mutable fields of `FunctionCompiler` threaded through lowering. -/
structure CSt where
  registerCounter : Nat
  locals : List String
  constants : Constants
deriving DecidableEq

/-- The register naming scheme: `%` followed by the decimal counter. -/
def regName (n : Nat) : String := "%" ++ Nat.repr n

/-- Mirrors `nextRegister`: return `%`+counter, then increment. -/
def nextRegister (c : CSt) : String × CSt :=
  (regName c.registerCounter, { c with registerCounter := c.registerCounter + 1 })

/-- Mirrors `compileLiteral`. -/
def compileLiteral (c : CSt) (value : Literal) : String × CSt :=
  match value with
  | .nul => ("0", c)
  | .num v => (v, c)
  | .str v =>
    let (sym, constants) := c.constants.store v
    (sym, { c with constants := constants })

mutual
/-- Mirrors `compileExpr`: a node whose `type` is `'rvalue'` and a
wrapper node carrying an rvalue dispatch to the same rvalue handling, so
the shared `case 'rvalue'` body is the mutual `compileRv`. -/
def compileExpr (defMap : List String) (expr : Expr) (c : CSt) (block : Block) :
    Except CErr (String × CSt × Block) :=
  match expr with
  | .rvalue v => compileRv defMap v c block
  | .node value => compileVal defMap value c block

/-- The switch body of `compileExpr`; the five binary-operator cases
carry their `instructionMap` opcode inline. -/
def compileVal (defMap : List String) (value : Val) (c : CSt) (block : Block) :
    Except CErr (String × CSt × Block) :=
  match value with
  | .derefExpr inner => do
    let (evaled, c, block) ← compileExpr defMap inner c block
    let (register, c) := nextRegister c
    .ok (register, c, pushInstr block ["LOAD", evaled, register])
  | .addExpr op1 op2 => do
    let (r1, c, block) ← compileExpr defMap op1 c block
    let (r2, c, block) ← compileExpr defMap op2 c block
    let (register, c) := nextRegister c
    .ok (register, c, pushInstr block ["ADD", r1, r2, register])
  | .subExpr op1 op2 => do
    let (r1, c, block) ← compileExpr defMap op1 c block
    let (r2, c, block) ← compileExpr defMap op2 c block
    let (register, c) := nextRegister c
    .ok (register, c, pushInstr block ["SUB", r1, r2, register])
  | .mulExpr op1 op2 => do
    let (r1, c, block) ← compileExpr defMap op1 c block
    let (r2, c, block) ← compileExpr defMap op2 c block
    let (register, c) := nextRegister c
    .ok (register, c, pushInstr block ["MUL", r1, r2, register])
  | .divExpr op1 op2 => do
    let (r1, c, block) ← compileExpr defMap op1 c block
    let (r2, c, block) ← compileExpr defMap op2 c block
    let (register, c) := nextRegister c
    .ok (register, c, pushInstr block ["DIV", r1, r2, register])
  | .eqExpr op1 op2 => do
    let (r1, c, block) ← compileExpr defMap op1 c block
    let (r2, c, block) ← compileExpr defMap op2 c block
    let (register, c) := nextRegister c
    .ok (register, c, pushInstr block ["EQ", r1, r2, register])
  | .callExpr identifier args => do
    let (compiledArgs, c, block) ← compileArgs defMap args c block
    let (register, c) := nextRegister c
    if identifier ∈ defMap then
      .ok (register, c, pushInstr block (["CALL", identifier, register] ++ compiledArgs))
    else
      .error (.undefinedFunction identifier)
  | .rvalueVal v => compileRv defMap v c block

/-- The shared `case 'rvalue'` body of `compileExpr`. -/
def compileRv (defMap : List String) (v : Rv) (c : CSt) (block : Block) :
    Except CErr (String × CSt × Block) :=
  match v with
  | .str s => .ok (s, c, block)
  | .lit l =>
    let (r, c) := compileLiteral c l
    .ok (r, c, block)
  | .wrapped e => compileExpr defMap e c block

/-- Mirrors `value.args.map(arg => this.compileExpr(arg, block))`. -/
def compileArgs (defMap : List String) (args : List Expr) (c : CSt) (block : Block) :
    Except CErr (List String × CSt × Block) :=
  match args with
  | [] => .ok ([], c, block)
  | arg :: rest => do
    let (r, c, block) ← compileExpr defMap arg c block
    let (rs, c, block) ← compileArgs defMap rest c block
    .ok (r :: rs, c, block)
end

/-- Mirrors `compileDerefLvalue`: a bare name registers a local slot and
is returned as the address; one `LOAD` is emitted per dereference. -/
def compileDerefLvalue (c : CSt) (lvalue : Lvalue) (block : Block) :
    String × CSt × Block :=
  match lvalue with
  | .name s =>
    let locals := if s ∈ c.locals then c.locals else c.locals ++ [s]
    (s, { c with locals := locals }, block)
  | .deref value =>
    let (register, c, block) := compileDerefLvalue c value block
    let (storeRegister, c) := nextRegister c
    (storeRegister, c, pushInstr block ["LOAD", register, storeRegister])

/-- Mirrors `compileAssignment`. -/
def compileAssignment (defMap : List String) (lvalue : Lvalue) (expr : Expr)
    (c : CSt) (block : Block) : Except CErr (CSt × Block) := do
  let (resultRegister, c, block) ← compileExpr defMap expr c block
  match lvalue with
  | .name s => .ok (c, pushInstr block ["MOV", resultRegister, s])
  | .deref value =>
    let (addrRegister, c, block) := compileDerefLvalue c value block
    .ok (c, pushInstr block ["STORE", addrRegister, resultRegister])

/-- Mirrors `compilePtrAssignment`: the lvalue is passed to
`compileDerefLvalue` without unwrapping. -/
def compilePtrAssignment (defMap : List String) (lvalue : Lvalue) (expr : Expr)
    (c : CSt) (block : Block) : Except CErr (CSt × Block) := do
  let (resultRegister, c, block) ← compileExpr defMap expr c block
  let (addrRegister, c, block) := compileDerefLvalue c lvalue block
  .ok (c, pushInstr block ["STORE", addrRegister, resultRegister])

/-- Mirrors `compileReturn`. -/
def compileReturn (defMap : List String) (value : Expr) (c : CSt) (block : Block) :
    Except CErr (CSt × Block) := do
  let (r, c, block) ← compileExpr defMap value c block
  .ok (c, pushInstr block ["RET", r])

/-- Mirrors `compileBranch`: successors are recorded first, then the
condition is lowered, then `BR` is emitted. -/
def compileBranch (defMap : List String) (condition : Expr) (label1 label2 : String)
    (c : CSt) (block : Block) : Except CErr (CSt × Block) := do
  let block := { block with successors := block.successors ++ [label1, label2] }
  let (register, c, block) ← compileExpr defMap condition c block
  .ok (c, pushInstr block ["BR", register, label1, label2])

/-- Mirrors `compileWrite`: data is lowered before length. -/
def compileWrite (defMap : List String) (data length : Expr) (c : CSt) (block : Block) :
    Except CErr (CSt × Block) := do
  let (dataReg, c, block) ← compileExpr defMap data c block
  let (lenReg, c, block) ← compileExpr defMap length c block
  .ok (c, pushInstr block ["WRITE", dataReg, lenReg])

/-- Mirrors `compileLine`: lower one statement, report whether it
terminates the block (`Branch` and `Return` only). -/
def compileLine (defMap : List String) (line : Line) (c : CSt) (block : Block) :
    Except CErr (Bool × CSt × Block) :=
  match line with
  | .labelDef _ => .error (.unknownStatement "labelDef")
  | .assignment lvalue expr => do
    let (c, block) ← compileAssignment defMap lvalue expr c block
    .ok (false, c, block)
  | .ptrAssignment lvalue expr => do
    let (c, block) ← compilePtrAssignment defMap lvalue expr c block
    .ok (false, c, block)
  | .ret value => do
    let (c, block) ← compileReturn defMap value c block
    .ok (true, c, block)
  | .branch condition label1 label2 => do
    let (c, block) ← compileBranch defMap condition label1 label2 c block
    .ok (true, c, block)
  | .write data length => do
    let (c, block) ← compileWrite defMap data length c block
    .ok (false, c, block)
  | .expr value => do
    let (_, c, block) ← compileVal defMap value c block
    .ok (false, c, block)

/-- The loop state of `compileFunction`. -/
structure LoopSt where
  blocks : List Block
  currentBlock : Block
  hasPrevBlock : Bool
  blockTerminated : Bool
  visitedLabels : List String
  cst : CSt
deriving DecidableEq

/-- The statement loop of `compileFunction`: a label definition checks
for duplicates (after remapping a literal `init` to `init1`), then for
fall-through of the previous block, then starts a fresh block; any other
line is refused after a terminator and otherwise lowered. -/
def compileLines (defMap : List String) : List Line → LoopSt → Except CErr LoopSt
  | [], s => .ok s
  | line :: rest, s =>
    match line with
    | .labelDef v =>
      let labelName := if v = "init" then "init1" else v
      if labelName ∈ s.visitedLabels then
        .error (.duplicateLabel labelName)
      else if !s.blockTerminated && s.hasPrevBlock then
        .error (.fallthroughBlock s.currentBlock.label)
      else
        compileLines defMap rest
          { blocks := s.blocks ++ [s.currentBlock]
            currentBlock := Block.new labelName
            hasPrevBlock := true
            blockTerminated := false
            visitedLabels := s.visitedLabels ++ [labelName]
            cst := s.cst }
    | _ =>
      if s.blockTerminated then
        .error (.unreachableCode s.currentBlock.label)
      else
        match compileLine defMap line s.cst s.currentBlock with
        | .error e => .error e
        | .ok (term, cst, blk) =>
          compileLines defMap rest
            { s with currentBlock := blk, blockTerminated := s.blockTerminated || term,
                     cst := cst }

/-- The initial loop state: an implicit `init` block, no previous block,
register counter seeded at the parameter count. -/
def initLoopSt (definition : Definition) (constants : Constants) : LoopSt :=
  { blocks := []
    currentBlock := Block.new "init"
    hasPrevBlock := false
    blockTerminated := false
    visitedLabels := []
    cst := { registerCounter := definition.inTypes.length, locals := [],
             constants := constants } }

/-- End of stream: append the synthetic `RET '0'` if the final block
never terminated, then push it. -/
def finalizeBlocks (s : LoopSt) : List Block :=
  let s := if s.blockTerminated then s
           else { s with currentBlock := pushInstr s.currentBlock ["RET", "0"] }
  s.blocks ++ [s.currentBlock]

/-- Mirrors `blocks.some(block => block.label === successor)`. -/
def blockExists (blocks : List Block) (successor : String) : Bool :=
  blocks.any (fun block => block.label == successor)

/-- The inner loop of the label post-pass. -/
def checkSuccessors (blocks : List Block) : List String → Except CErr Unit
  | [] => .ok ()
  | successor :: rest =>
    if blockExists blocks successor then checkSuccessors blocks rest
    else .error (.danglingLabel successor)

/-- The outer loop of the label post-pass. -/
def checkAllBlocks (blocks : List Block) : List Block → Except CErr Unit
  | [] => .ok ()
  | block :: rest => do
    checkSuccessors blocks block.successors
    checkAllBlocks blocks rest

/-- The compiled Function IR. -/
structure Func where
  identifier : String
  inTypes : List String
  outType : String
  blocks : List Block
  locals : List String
deriving DecidableEq

/-- Mirrors `compileFunction`. -/
def compileFunction (definition : Definition) (defMap : List String)
    (constants : Constants) : Except CErr (Func × Constants) := do
  let s ← compileLines defMap definition.lines (initLoopSt definition constants)
  let blocks := finalizeBlocks s
  checkAllBlocks blocks blocks
  .ok ({ identifier := definition.identifier, inTypes := definition.inTypes,
         outType := definition.outType, blocks := blocks, locals := s.cst.locals },
       s.cst.constants)

/-- The program AST. -/
structure Ast where
  definitions : List Definition

/-- The compiled Program IR. -/
structure Program where
  functions : List Func
  entryPoint : Option Func
  constants : CompiledConstants
deriving DecidableEq

/-- The duplicate-definition check that builds `defMap`. -/
def buildDefMap : List Definition → List String → Except CErr (List String)
  | [], defMap => .ok defMap
  | definition :: rest, defMap =>
    if definition.identifier ∈ defMap then
      .error (.duplicateDefinition definition.identifier)
    else
      buildDefMap rest (defMap ++ [definition.identifier])

/-- Compiling every definition in order, threading the shared pool. -/
def compileAll (defMap : List String) : List Definition → Constants →
    Except CErr (List Func × Constants)
  | [], constants => .ok ([], constants)
  | d :: rest, constants => do
    let (f, constants) ← compileFunction d defMap constants
    let (fs, constants) ← compileAll defMap rest constants
    .ok (f :: fs, constants)

/-- Mirrors `compileProgram`. -/
def compileProgram (ast : Ast) : Except CErr Program := do
  let defMap ← buildDefMap ast.definitions []
  let (compiledFunctions, constants) ← compileAll defMap ast.definitions
    { data := [], symbols := [] }
  .ok { functions := compiledFunctions
        entryPoint := compiledFunctions.find? (fun func => func.identifier == "main")
        constants := constants.compile }

/-! Property-side definitions used to state the claims. -/

/-- An instruction is a terminator when its opcode is RET or BR. -/
def isTerm (i : Instr) : Bool :=
  match i with
  | op :: _ => op == "RET" || op == "BR"
  | [] => false

/-- No instruction of the list is a terminator. -/
def noTermInstr (l : List Instr) : Bool := l.all (fun i => !isTerm i)

/-- The list ends with exactly one terminator: the last instruction is a
RET or BR and no earlier instruction is. -/
def wellTerminated (l : List Instr) : Bool :=
  match l.getLast? with
  | some t => isTerm t && noTermInstr l.dropLast
  | none => false

/-- No instruction appears after a RET or BR: every non-final
instruction is a non-terminator. -/
def noInstrAfterTerm (l : List Instr) : Bool := noTermInstr l.dropLast

/-- Block-termination shape of a compiled function: every block except
possibly the first is well terminated, the final block is well
terminated, and no block continues past a terminator. -/
def blocksWellFormed (F : Func) : Bool :=
  (match F.blocks with
   | [] => false
   | _ :: rest => rest.all (fun b => wellTerminated b.instructions)) &&
  (match F.blocks.getLast? with
   | some b => wellTerminated b.instructions
   | none => false) &&
  F.blocks.all (fun b => noInstrAfterTerm b.instructions)

/-- Every successor label of every block names exactly one block. -/
def labelsResolved (F : Func) : Bool :=
  F.blocks.all (fun b => b.successors.all (fun succ =>
    F.blocks.countP (fun b2 => b2.label == succ) == 1))

/-- Some block has a successor label naming no block of the list. -/
def hasDangling (blocks : List Block) : Bool :=
  blocks.any (fun b => b.successors.any (fun succ => !blockExists blocks succ))

/-- Append a name unless it is already present (first-use order). -/
def insertIfAbsent (l : List String) (s : String) : List String :=
  if s ∈ l then l else l ++ [s]

/-- The non-dereferenced base name of an lvalue chain. -/
def baseName : Lvalue → String
  | .name s => s
  | .deref v => baseName v

/-- Spec-side reading of one statement: the names occurring as the
non-dereferenced base of a dereferenced-lvalue assignment or
pointer-assignment store, registered on first encounter. -/
def localsLineEffect (line : Line) (acc : List String) : List String :=
  match line with
  | .assignment (.deref v) _ => insertIfAbsent acc (baseName v)
  | .ptrAssignment lv _ => insertIfAbsent acc (baseName lv)
  | _ => acc

/-- Accumulate the spec-side local slots over a statement stream. -/
def localsSpecAux : List Line → List String → List String
  | [], acc => acc
  | line :: rest, acc => localsSpecAux rest (localsLineEffect line acc)

/-- The spec-side local-slot list of a statement stream. -/
def localsSpec (lines : List Line) : List String := localsSpecAux lines []

/-- Iterate the register allocator, collecting the issued names. -/
def issueRegs : Nat → CSt → List String × CSt
  | 0, c => ([], c)
  | k + 1, c =>
    let (r, c') := nextRegister c
    let (rs, c'') := issueRegs k c'
    (r :: rs, c'')

/-- The number of dereference levels of an lvalue chain. -/
def derefDepth : Lvalue → Nat
  | .name _ => 0
  | .deref v => derefDepth v + 1

/-- Store a list of constants in order. -/
def storeAll (c : Constants) : List String → Constants
  | [] => c
  | s :: rest => storeAll (c.store s).2 rest

/-- Total byte length of a list of constants. -/
def lenSum (ss : List String) : Nat := (ss.map String.length).sum

/-- Decimal digit value of a digit character. -/
def decDigit (ch : Char) : Nat := ch.toNat - 48

/-- Decimal value of a digit string, most significant first. -/
def decNat (l : List Char) : Nat := l.foldl (fun a ch => a * 10 + decDigit ch) 0

/-- Example expression `add 1 2`. -/
def exAdd12 : Expr :=
  .node (.addExpr (.rvalue (.lit (.num "1"))) (.rvalue (.lit (.num "2"))))

/-- Example function: `def u8 f { x = add 1 2 / l1: / ret x }`. -/
def exC1def : Definition :=
  { outType := "u8", identifier := "f", inTypes := [],
    lines := [ .assignment (.name "x") exAdd12, .labelDef "l1",
               .ret (.rvalue (.str "x")) ] }

/-- Example function whose entry block is closed unterminated by a label. -/
def exC2def : Definition :=
  { outType := "u8", identifier := "g", inTypes := [],
    lines := [ .assignment (.name "y") (.rvalue (.lit (.num "5"))), .labelDef "l2",
               .ret (.rvalue (.lit (.num "7"))) ] }

/-- Example function whose blocks all terminate. -/
def exC2okdef : Definition :=
  { outType := "u8", identifier := "h", inTypes := [],
    lines := [ .ret (.rvalue (.lit (.num "1"))), .labelDef "next",
               .ret (.rvalue (.lit (.num "2"))) ] }

/-- Example function with a branch to two labels. -/
def exC7def : Definition :=
  { outType := "u8", identifier := "p", inTypes := [],
    lines := [ .branch (.rvalue (.lit (.num "1"))) "a" "b",
               .labelDef "a", .ret (.rvalue (.lit (.num "1"))),
               .labelDef "b", .ret (.rvalue (.lit (.num "2"))) ] }

/-- Example function with a branch to a label naming no block. -/
def exC7dangling : Definition :=
  { outType := "u8", identifier := "q", inTypes := [],
    lines := [ .branch (.rvalue (.lit (.num "1"))) "a" "nope",
               .labelDef "a", .ret (.rvalue (.lit (.num "1"))) ] }

/-- Example function with two labels named `a`. -/
def exC8def : Definition :=
  { outType := "u8", identifier := "r", inTypes := [],
    lines := [ .labelDef "a", .ret (.rvalue (.lit (.num "0"))), .labelDef "a" ] }

/-- Example function with one dereferenced-lvalue store to `p`. -/
def exC9def : Definition :=
  { outType := "u8", identifier := "w", inTypes := [],
    lines := [ .assignment (.deref (.name "p")) (.rvalue (.lit (.num "1"))) ] }

/-- Example program with a single empty `main`. -/
def exC10ast : Ast :=
  { definitions := [ { outType := "u8", identifier := "main", inTypes := [],
                       lines := [] } ] }

/-- The compiled Program IR of `exC10ast`. -/
def exC10prog : Program :=
  { functions := [ { identifier := "main", inTypes := [], outType := "u8",
                     blocks := [ { label := "init", instructions := [["RET", "0"]],
                                   successors := [] } ],
                     locals := [] } ],
    entryPoint := some { identifier := "main", inTypes := [], outType := "u8",
                         blocks := [ { label := "init", instructions := [["RET", "0"]],
                                       successors := [] } ],
                         locals := [] },
    constants := { memory := [], offsets := [] } }

/-- The invariant of the `compileFunction` statement loop: pushed blocks
beyond the first are well terminated, no block continues past a
terminator, `hasPrevBlock` tracks whether a block was pushed, the open
block is terminator-free until it terminates, block labels are distinct,
and every label is the entry label or a visited one. -/
def LoopInv (s : LoopSt) : Prop :=
  (s.hasPrevBlock = true ↔ s.blocks ≠ []) ∧
  (∀ b ∈ s.blocks.drop 1, wellTerminated b.instructions = true) ∧
  (∀ b ∈ s.blocks, noInstrAfterTerm b.instructions = true) ∧
  (s.blockTerminated = true → wellTerminated s.currentBlock.instructions = true) ∧
  (s.blockTerminated = false → noTermInstr s.currentBlock.instructions = true) ∧
  (s.blocks.map Block.label ++ [s.currentBlock.label]).Nodup ∧
  (∀ l ∈ s.blocks.map Block.label ++ [s.currentBlock.label],
    l = "init" ∨ l ∈ s.visitedLabels) ∧
  (∀ l ∈ s.visitedLabels, l ≠ "init")

/-- Relation between the states before and after lowering one
expression or statement fragment: block label and successors are
untouched, the local-slot list is untouched, and the instructions grow
only by appended non-terminators. -/
def EmitsOk (c : CSt) (b : Block) (cOut : CSt) (bOut : Block) : Prop :=
  bOut.label = b.label ∧ bOut.successors = b.successors ∧ cOut.locals = c.locals ∧
  ∃ new, bOut.instructions = b.instructions ++ new ∧ noTermInstr new = true

/-! Helper lemmas: injectivity of the decimal naming schemes. -/

/-- Decoding inverts `Nat.digitChar` on decimal digits. -/
theorem decDigit_digitChar (d : Nat) (h : d < 10) : decDigit (Nat.digitChar d) = d := by
  unfold decDigit
  interval_cases d <;> rfl

/-- Decoding the accumulator-passing digit printer recovers the value. -/
theorem foldl_toDigitsCore (f : Nat) : ∀ (n : Nat) (l : List Char), n < f →
    (Nat.toDigitsCore 10 f n l).foldl (fun a ch => a * 10 + decDigit ch) 0 =
    l.foldl (fun a ch => a * 10 + decDigit ch) n := by
  induction f with
  | zero => intro n l h; omega
  | succ f ih =>
    intro n l h
    by_cases h10 : n / 10 = 0
    · have hn : n < 10 := by omega
      simp only [Nat.toDigitsCore, h10, if_true, List.foldl_cons]
      rw [decDigit_digitChar (n % 10) (Nat.mod_lt n (by norm_num))]
      simp [Nat.mod_eq_of_lt hn]
    · have hpos : 0 < n := by
        rcases Nat.eq_zero_or_pos n with h0 | h0
        · subst h0; simp at h10
        · exact h0
      have hlt : n / 10 < n := Nat.div_lt_self hpos (by norm_num)
      have hf : n / 10 < f := by omega
      simp only [Nat.toDigitsCore, h10, if_false]
      rw [ih (n / 10) _ hf]
      simp only [List.foldl_cons]
      rw [decDigit_digitChar (n % 10) (Nat.mod_lt n (by norm_num))]
      congr 1
      omega

/-- Decoding the decimal representation recovers the number. -/
theorem decNat_repr_data (n : Nat) : decNat (Nat.repr n).data = n := by
  have h := foldl_toDigitsCore (n + 1) n [] (Nat.lt_succ_self n)
  simpa [Nat.repr, Nat.toDigits, List.asString, decNat] using h

/-- Two numbers with the same decimal representation are equal. -/
theorem repr_data_inj {a b : Nat} (h : (Nat.repr a).data = (Nat.repr b).data) :
    a = b := by
  have ha := decNat_repr_data a
  have hb := decNat_repr_data b
  rw [h, hb] at ha
  exact ha.symm

/-- Register names are distinct for distinct counters. -/
theorem regName_inj : Function.Injective regName := by
  intro a b h
  apply repr_data_inj
  have h2 := congrArg String.data h
  simpa [regName, String.data_append] using h2

/-- Constant symbols are distinct for distinct indices. -/
theorem symName_inj : Function.Injective symName := by
  intro a b h
  apply repr_data_inj
  have h2 := congrArg String.data h
  simpa [symName, String.data_append] using h2

/-! Claim C3: the register allocator. -/

/-- Issuing registers appends names in counter order. -/
theorem issueRegs_spec (k : Nat) : ∀ c : CSt,
    (issueRegs k c).1 = (List.range k).map (fun i => regName (c.registerCounter + i)) ∧
    (issueRegs k c).2.registerCounter = c.registerCounter + k := by
  induction k with
  | zero => intro c; simp [issueRegs]
  | succ k ih =>
    intro c
    obtain ⟨h1, h2⟩ := ih { c with registerCounter := c.registerCounter + 1 }
    constructor
    · simp only [issueRegs, nextRegister, h1, List.range_succ_eq_map, List.map_cons,
        List.map_map]
      congr 1
      apply List.map_congr_left
      intro i _
      simp only [Function.comp, Nat.succ_eq_add_one]
      congr 1
      omega
    · simp only [issueRegs, nextRegister, h2]
      omega

/-- C3: within one function, the allocator is seeded at the parameter
count; each issue returns `%`+counter and then increments, so the issued
register names follow strictly increasing counters and never repeat. -/
theorem claim_C3 :
    (∀ (d : Definition) (c : Constants),
      (initLoopSt d c).cst.registerCounter = d.inTypes.length) ∧
    (∀ c : CSt, nextRegister c =
      (regName c.registerCounter, { c with registerCounter := c.registerCounter + 1 })) ∧
    (∀ (k : Nat) (c : CSt),
      (issueRegs k c).1 = (List.range k).map (fun i => regName (c.registerCounter + i)) ∧
      (issueRegs k c).2.registerCounter = c.registerCounter + k ∧
      (issueRegs k c).1.Nodup) := by
  refine ⟨fun d c => rfl, fun c => rfl, fun k c => ?_⟩
  obtain ⟨h1, h2⟩ := issueRegs_spec k c
  refine ⟨h1, h2, ?_⟩
  rw [h1]
  apply List.Nodup.map _ (List.nodup_range k)
  intro i j hij
  have := regName_inj hij
  omega

/-! Claims C4 and C5: the constant pool. -/

/-- Stored values accumulate in order. -/
theorem storeAll_data : ∀ (ss : List String) (c : Constants),
    (storeAll c ss).data = c.data ++ ss := by
  intro ss
  induction ss with
  | nil => intro c; simp [storeAll]
  | cons s rest ih =>
    intro c
    simp [storeAll, Constants.store, ih]

/-- Symbols accumulate as `@.`+index in index order. -/
theorem storeAll_symbols : ∀ (ss : List String) (c : Constants),
    (storeAll c ss).symbols =
      c.symbols ++ (List.range' c.data.length ss.length).map symName := by
  intro ss
  induction ss with
  | nil => intro c; simp [storeAll]
  | cons s rest ih =>
    intro c
    rw [storeAll, ih]
    simp [Constants.store, List.range'_succ]

/-- The offsets table has one entry per stored pair. -/
theorem compileGo_offsets_length : ∀ (pairs : List (String × String)) (ptr : Nat),
    (compileGo pairs ptr).2.length = pairs.length := by
  intro pairs
  induction pairs with
  | nil => intro ptr; rfl
  | cons p rest ih => intro ptr; simp [compileGo, ih]

/-- Byte length of one constant. -/
theorem lenSum_cons (s : String) (t : List String) :
    lenSum (s :: t) = s.length + lenSum t := by
  simp [lenSum]

/-- The compile loop, run over values paired with consecutive symbols:
bytes are concatenated in order, and the symbol of index `j + i` is
recorded at the running offset. -/
theorem compileGo_zip_spec : ∀ (ss : List String) (j ptr : Nat),
    (compileGo (ss.zip ((List.range' j ss.length).map symName)) ptr).1 =
      (ss.map stringBytes).flatten ∧
    ∀ i, i < ss.length →
      (compileGo (ss.zip ((List.range' j ss.length).map symName)) ptr).2[i]? =
        some (symName (j + i), ptr + lenSum (ss.take i)) := by
  intro ss
  induction ss with
  | nil => intro j ptr; exact ⟨rfl, fun i hi => absurd hi (by simp)⟩
  | cons s rest ih =>
    intro j ptr
    have hzip : (s :: rest).zip ((List.range' j (s :: rest).length).map symName) =
        (s, symName j) :: rest.zip ((List.range' (j + 1) rest.length).map symName) := by
      simp [List.range'_succ]
    obtain ⟨ihm, iho⟩ := ih (j + 1) (ptr + s.length)
    constructor
    · rw [hzip]
      simp [compileGo, ihm]
    · intro i hi
      rw [hzip]
      match i with
      | 0 => simp [compileGo, lenSum]
      | i + 1 =>
        have hi' : i < rest.length := by simpa using hi
        simp only [compileGo, List.getElem?_cons_succ]
        rw [iho i hi']
        have e1 : j + 1 + i = j + (i + 1) := by omega
        have e2 : ptr + s.length + lenSum (List.take i rest) =
            ptr + lenSum (List.take (i + 1) (s :: rest)) := by
          rw [List.take_succ_cons, lenSum_cons]
          omega
        rw [e1, e2]

/-- C4: after storing `s1..sn` in order and finalizing, the memory is
the concatenation of the per-character low bytes in creation order, its
total length is the sum of the byte lengths, and the offset recorded for
the i-th symbol is the sum of the byte lengths of the earlier constants. -/
theorem claim_C4 (ss : List String) :
    ((storeAll ⟨[], []⟩ ss).compile).memory = (ss.map stringBytes).flatten ∧
    ((storeAll ⟨[], []⟩ ss).compile).memory.length = lenSum ss ∧
    ((storeAll ⟨[], []⟩ ss).compile).offsets.length = ss.length ∧
    ∀ i, i < ss.length →
      ((storeAll ⟨[], []⟩ ss).compile).offsets[i]? =
        some (symName i, lenSum (ss.take i)) := by
  have hd : (storeAll ⟨[], []⟩ ss).data = ss := by simp [storeAll_data]
  have hs : (storeAll ⟨[], []⟩ ss).symbols = (List.range' 0 ss.length).map symName := by
    simp [storeAll_symbols]
  obtain ⟨hm, ho⟩ := compileGo_zip_spec ss 0 0
  have hcompile : (storeAll ⟨[], []⟩ ss).compile =
      { memory := (compileGo (ss.zip ((List.range' 0 ss.length).map symName)) 0).1,
        offsets := (compileGo (ss.zip ((List.range' 0 ss.length).map symName)) 0).2 } := by
    rw [Constants.compile, hd, hs]
  refine ⟨?_, ?_, ?_, ?_⟩
  · rw [hcompile, hm]
  · rw [hcompile, hm]
    simp only [List.length_flatten, List.map_map]
    unfold lenSum
    congr 1
    apply List.map_congr_left
    intro s _
    simp only [Function.comp, stringBytes, List.length_map]
    rfl
  · rw [hcompile]
    simp [compileGo_offsets_length]
  · intro i hi
    rw [hcompile]
    have := ho i hi
    simpa using this

/-- C5: `store` always creates a new entry and returns `@.`+index with
no deduplication; storing `"hi"` twice yields the distinct symbols
`@.0` and `@.1`, whose offsets map to identical byte content. -/
theorem claim_C5 :
    (∀ (c : Constants) (v : String),
      c.store v = (symName c.data.length,
        { data := c.data ++ [v], symbols := c.symbols ++ [symName c.data.length] })) ∧
    (Constants.store ⟨[], []⟩ "hi").1 = "@.0" ∧
    ((Constants.store ⟨[], []⟩ "hi").2.store "hi").1 = "@.1" ∧
    ("@.0" : String) ≠ "@.1" ∧
    ((storeAll ⟨[], []⟩ ["hi", "hi"]).compile).offsets = [("@.0", 0), ("@.1", 2)] ∧
    (((storeAll ⟨[], []⟩ ["hi", "hi"]).compile).memory.drop 0).take 2 =
      (((storeAll ⟨[], []⟩ ["hi", "hi"]).compile).memory.drop 2).take 2 :=
  ⟨fun c v => rfl, by decide, by decide, by decide, by decide, by decide⟩

/-! Expression lowering only appends non-terminators and never touches
labels, successors or locals. -/

/-- EmitsOk is reflexive. -/
theorem emitsOk_refl (c : CSt) (b : Block) : EmitsOk c b c b :=
  ⟨rfl, rfl, rfl, [], by simp, rfl⟩

/-- EmitsOk composes. -/
theorem emitsOk_trans {c b c1 b1 c2 b2} (h1 : EmitsOk c b c1 b1)
    (h2 : EmitsOk c1 b1 c2 b2) : EmitsOk c b c2 b2 := by
  obtain ⟨hl1, hs1, hc1, n1, hi1, ht1⟩ := h1
  obtain ⟨hl2, hs2, hc2, n2, hi2, ht2⟩ := h2
  refine ⟨hl2.trans hl1, hs2.trans hs1, hc2.trans hc1, n1 ++ n2, ?_, ?_⟩
  · rw [hi2, hi1, List.append_assoc]
  · simp only [noTermInstr, List.all_append] at ht1 ht2 ⊢
    rw [ht1, ht2]
    rfl

/-- Appending one non-terminator preserves EmitsOk. -/
theorem emitsOk_push {c b c1 b1} (h : EmitsOk c b c1 b1) (i : Instr)
    (hi : isTerm i = false) : EmitsOk c b c1 (pushInstr b1 i) := by
  obtain ⟨hl, hs, hc, n, hin, ht⟩ := h
  refine ⟨hl, hs, hc, n ++ [i], ?_, ?_⟩
  · simp [pushInstr, hin]
  · simp only [noTermInstr, List.all_append] at ht ⊢
    rw [ht]
    simp [noTermInstr, hi]

/-- Bumping the register counter preserves EmitsOk. -/
theorem emitsOk_nextRegister {c b c1 b1} (h : EmitsOk c b c1 b1) :
    EmitsOk c b (nextRegister c1).2 b1 := by
  obtain ⟨hl, hs, hc, n, hin, ht⟩ := h
  exact ⟨hl, hs, hc, n, hin, ht⟩

/-- Storing a literal preserves EmitsOk. -/
theorem emitsOk_compileLiteral {c b c1 b1} (h : EmitsOk c b c1 b1) (l : Literal) :
    EmitsOk c b (compileLiteral c1 l).2 b1 := by
  obtain ⟨hl, hs, hc, n, hin, ht⟩ := h
  refine ⟨hl, hs, ?_, n, hin, ht⟩
  cases l <;> simpa [compileLiteral]

mutual
/-- Lowering an expression only appends non-terminator instructions. -/
theorem compileExpr_emits (defMap : List String) (expr : Expr) :
    ∀ (c : CSt) (b : Block) (r : String) (cOut : CSt) (bOut : Block),
      compileExpr defMap expr c b = .ok (r, cOut, bOut) → EmitsOk c b cOut bOut := by
  intro c b r cOut bOut h
  match expr with
  | .rvalue v =>
    rw [compileExpr] at h
    exact compileRv_emits defMap v c b r cOut bOut h
  | .node value =>
    rw [compileExpr] at h
    exact compileVal_emits defMap value c b r cOut bOut h

/-- Lowering a dispatched value only appends non-terminators. -/
theorem compileVal_emits (defMap : List String) (value : Val) :
    ∀ (c : CSt) (b : Block) (r : String) (cOut : CSt) (bOut : Block),
      compileVal defMap value c b = .ok (r, cOut, bOut) → EmitsOk c b cOut bOut := by
  intro c b r cOut bOut h
  match value with
  | .derefExpr inner =>
    rw [compileVal] at h
    cases hrec : compileExpr defMap inner c b with
    | error e =>
      rw [hrec] at h
      simp only [Bind.bind, Except.bind] at h
      exact Except.noConfusion h
    | ok res =>
      obtain ⟨evaled, c1, b1⟩ := res
      rw [hrec] at h
      simp only [Bind.bind, Except.bind, Except.ok.injEq, Prod.mk.injEq] at h
      obtain ⟨-, hc, hb⟩ := h
      subst hc hb
      exact emitsOk_push
        (emitsOk_nextRegister (compileExpr_emits defMap inner c b evaled c1 b1 hrec))
        _ rfl
  | .addExpr op1 op2 =>
    rw [compileVal] at h
    cases h1 : compileExpr defMap op1 c b with
    | error e =>
      rw [h1] at h
      simp only [Bind.bind, Except.bind] at h
      exact Except.noConfusion h
    | ok res1 =>
      obtain ⟨r1, c1, b1⟩ := res1
      rw [h1] at h
      simp only [Bind.bind, Except.bind] at h
      cases h2 : compileExpr defMap op2 c1 b1 with
      | error e =>
        rw [h2] at h
        exact Except.noConfusion h
      | ok res2 =>
        obtain ⟨r2, c2, b2⟩ := res2
        rw [h2] at h
        simp only [Except.ok.injEq, Prod.mk.injEq] at h
        obtain ⟨-, hc, hb⟩ := h
        subst hc hb
        exact emitsOk_push
          (emitsOk_nextRegister
            (emitsOk_trans (compileExpr_emits defMap op1 c b r1 c1 b1 h1)
              (compileExpr_emits defMap op2 c1 b1 r2 c2 b2 h2)))
          _ rfl
  | .subExpr op1 op2 =>
    rw [compileVal] at h
    cases h1 : compileExpr defMap op1 c b with
    | error e =>
      rw [h1] at h
      simp only [Bind.bind, Except.bind] at h
      exact Except.noConfusion h
    | ok res1 =>
      obtain ⟨r1, c1, b1⟩ := res1
      rw [h1] at h
      simp only [Bind.bind, Except.bind] at h
      cases h2 : compileExpr defMap op2 c1 b1 with
      | error e =>
        rw [h2] at h
        exact Except.noConfusion h
      | ok res2 =>
        obtain ⟨r2, c2, b2⟩ := res2
        rw [h2] at h
        simp only [Except.ok.injEq, Prod.mk.injEq] at h
        obtain ⟨-, hc, hb⟩ := h
        subst hc hb
        exact emitsOk_push
          (emitsOk_nextRegister
            (emitsOk_trans (compileExpr_emits defMap op1 c b r1 c1 b1 h1)
              (compileExpr_emits defMap op2 c1 b1 r2 c2 b2 h2)))
          _ rfl
  | .mulExpr op1 op2 =>
    rw [compileVal] at h
    cases h1 : compileExpr defMap op1 c b with
    | error e =>
      rw [h1] at h
      simp only [Bind.bind, Except.bind] at h
      exact Except.noConfusion h
    | ok res1 =>
      obtain ⟨r1, c1, b1⟩ := res1
      rw [h1] at h
      simp only [Bind.bind, Except.bind] at h
      cases h2 : compileExpr defMap op2 c1 b1 with
      | error e =>
        rw [h2] at h
        exact Except.noConfusion h
      | ok res2 =>
        obtain ⟨r2, c2, b2⟩ := res2
        rw [h2] at h
        simp only [Except.ok.injEq, Prod.mk.injEq] at h
        obtain ⟨-, hc, hb⟩ := h
        subst hc hb
        exact emitsOk_push
          (emitsOk_nextRegister
            (emitsOk_trans (compileExpr_emits defMap op1 c b r1 c1 b1 h1)
              (compileExpr_emits defMap op2 c1 b1 r2 c2 b2 h2)))
          _ rfl
  | .divExpr op1 op2 =>
    rw [compileVal] at h
    cases h1 : compileExpr defMap op1 c b with
    | error e =>
      rw [h1] at h
      simp only [Bind.bind, Except.bind] at h
      exact Except.noConfusion h
    | ok res1 =>
      obtain ⟨r1, c1, b1⟩ := res1
      rw [h1] at h
      simp only [Bind.bind, Except.bind] at h
      cases h2 : compileExpr defMap op2 c1 b1 with
      | error e =>
        rw [h2] at h
        exact Except.noConfusion h
      | ok res2 =>
        obtain ⟨r2, c2, b2⟩ := res2
        rw [h2] at h
        simp only [Except.ok.injEq, Prod.mk.injEq] at h
        obtain ⟨-, hc, hb⟩ := h
        subst hc hb
        exact emitsOk_push
          (emitsOk_nextRegister
            (emitsOk_trans (compileExpr_emits defMap op1 c b r1 c1 b1 h1)
              (compileExpr_emits defMap op2 c1 b1 r2 c2 b2 h2)))
          _ rfl
  | .eqExpr op1 op2 =>
    rw [compileVal] at h
    cases h1 : compileExpr defMap op1 c b with
    | error e =>
      rw [h1] at h
      simp only [Bind.bind, Except.bind] at h
      exact Except.noConfusion h
    | ok res1 =>
      obtain ⟨r1, c1, b1⟩ := res1
      rw [h1] at h
      simp only [Bind.bind, Except.bind] at h
      cases h2 : compileExpr defMap op2 c1 b1 with
      | error e =>
        rw [h2] at h
        exact Except.noConfusion h
      | ok res2 =>
        obtain ⟨r2, c2, b2⟩ := res2
        rw [h2] at h
        simp only [Except.ok.injEq, Prod.mk.injEq] at h
        obtain ⟨-, hc, hb⟩ := h
        subst hc hb
        exact emitsOk_push
          (emitsOk_nextRegister
            (emitsOk_trans (compileExpr_emits defMap op1 c b r1 c1 b1 h1)
              (compileExpr_emits defMap op2 c1 b1 r2 c2 b2 h2)))
          _ rfl
  | .callExpr identifier args =>
    rw [compileVal] at h
    cases hrec : compileArgs defMap args c b with
    | error e =>
      rw [hrec] at h
      simp only [Bind.bind, Except.bind] at h
      exact Except.noConfusion h
    | ok res =>
      obtain ⟨compiledArgs, c1, b1⟩ := res
      rw [hrec] at h
      simp only [Bind.bind, Except.bind] at h
      by_cases hid : identifier ∈ defMap
      · rw [if_pos hid] at h
        simp only [Except.ok.injEq, Prod.mk.injEq] at h
        obtain ⟨-, hc, hb⟩ := h
        subst hc hb
        exact emitsOk_push
          (emitsOk_nextRegister (compileArgs_emits defMap args c b compiledArgs c1 b1 hrec))
          _ rfl
      · rw [if_neg hid] at h
        exact Except.noConfusion h
  | .rvalueVal v =>
    rw [compileVal] at h
    exact compileRv_emits defMap v c b r cOut bOut h

/-- Lowering an rvalue payload only appends non-terminators. -/
theorem compileRv_emits (defMap : List String) (v : Rv) :
    ∀ (c : CSt) (b : Block) (r : String) (cOut : CSt) (bOut : Block),
      compileRv defMap v c b = .ok (r, cOut, bOut) → EmitsOk c b cOut bOut := by
  intro c b r cOut bOut h
  match v with
  | .str s =>
    rw [compileRv] at h
    simp only [Except.ok.injEq, Prod.mk.injEq] at h
    obtain ⟨-, hc, hb⟩ := h
    subst hc hb
    exact emitsOk_refl c b
  | .lit l =>
    rw [compileRv] at h
    simp only [Except.ok.injEq, Prod.mk.injEq] at h
    obtain ⟨-, hc, hb⟩ := h
    subst hc hb
    exact emitsOk_compileLiteral (emitsOk_refl c b) l
  | .wrapped e =>
    rw [compileRv] at h
    exact compileExpr_emits defMap e c b r cOut bOut h

/-- Lowering an argument list only appends non-terminators. -/
theorem compileArgs_emits (defMap : List String) (args : List Expr) :
    ∀ (c : CSt) (b : Block) (rs : List String) (cOut : CSt) (bOut : Block),
      compileArgs defMap args c b = .ok (rs, cOut, bOut) → EmitsOk c b cOut bOut := by
  intro c b rs cOut bOut h
  match args with
  | [] =>
    rw [compileArgs] at h
    simp only [Except.ok.injEq, Prod.mk.injEq] at h
    obtain ⟨-, hc, hb⟩ := h
    subst hc hb
    exact emitsOk_refl c b
  | arg :: rest =>
    rw [compileArgs] at h
    cases h1 : compileExpr defMap arg c b with
    | error e =>
      rw [h1] at h
      simp only [Bind.bind, Except.bind] at h
      exact Except.noConfusion h
    | ok res1 =>
      obtain ⟨r1, c1, b1⟩ := res1
      rw [h1] at h
      simp only [Bind.bind, Except.bind] at h
      cases h2 : compileArgs defMap rest c1 b1 with
      | error e =>
        rw [h2] at h
        exact Except.noConfusion h
      | ok res2 =>
        obtain ⟨rs2, c2, b2⟩ := res2
        rw [h2] at h
        simp only [Except.ok.injEq, Prod.mk.injEq] at h
        obtain ⟨-, hc, hb⟩ := h
        subst hc hb
        exact emitsOk_trans (compileExpr_emits defMap arg c b r1 c1 b1 h1)
          (compileArgs_emits defMap rest c1 b1 rs2 c2 b2 h2)
end

/-! Statement lowering lemmas. -/

/-- Lvalue lowering registers exactly the base name as a local slot. -/
theorem compileDerefLvalue_locals (lv : Lvalue) : ∀ (c : CSt) (b : Block),
    (compileDerefLvalue c lv b).2.1.locals = insertIfAbsent c.locals (baseName lv) := by
  induction lv with
  | name s => intro c b; rfl
  | deref v ih =>
    intro c b
    simp only [compileDerefLvalue, nextRegister]
    exact ih c b

/-- Lvalue lowering leaves the register counter's constants untouched,
preserves label and successors, and emits exactly `derefDepth` LOAD
instructions, none of them terminators. -/
theorem compileDerefLvalue_emits (lv : Lvalue) : ∀ (c : CSt) (b : Block),
    (compileDerefLvalue c lv b).2.2.label = b.label ∧
    (compileDerefLvalue c lv b).2.2.successors = b.successors ∧
    ∃ new, (compileDerefLvalue c lv b).2.2.instructions = b.instructions ++ new ∧
      noTermInstr new = true ∧ new.length = derefDepth lv ∧
      ∀ i ∈ new, i.head? = some "LOAD" := by
  induction lv with
  | name s =>
    intro c b
    exact ⟨rfl, rfl, [], by simp [compileDerefLvalue], rfl, rfl, by simp⟩
  | deref v ih =>
    intro c b
    obtain ⟨hl, hs, new, hnew, hterm, hlen, hload⟩ := ih c b
    simp only [compileDerefLvalue, nextRegister]
    refine ⟨hl, hs, new ++ [["LOAD", (compileDerefLvalue c v b).1,
      regName (compileDerefLvalue c v b).2.1.registerCounter]], ?_, ?_, ?_, ?_⟩
    · simp [pushInstr, hnew]
    · simp only [noTermInstr, List.all_append] at hterm ⊢
      rw [hterm]
      rfl
    · simp only [List.length_append, hlen, derefDepth, List.length_cons, List.length_nil]
    · intro i hi
      rcases List.mem_append.mp hi with hi | hi
      · exact hload i hi
      · simp only [List.mem_singleton] at hi
        subst hi
        rfl

/-- Lowering a direct or dereferenced assignment: label and successors
unchanged, only non-terminators appended, and the local-slot list grows
by the base name exactly in the dereferenced case. -/
theorem compileAssignment_spec (defMap : List String) (lv : Lvalue) (e : Expr)
    (c : CSt) (b : Block) (cOut : CSt) (bOut : Block)
    (h : compileAssignment defMap lv e c b = .ok (cOut, bOut)) :
    bOut.label = b.label ∧ bOut.successors = b.successors ∧
    (∃ new, bOut.instructions = b.instructions ++ new ∧ noTermInstr new = true) ∧
    cOut.locals = (match lv with
      | .name _ => c.locals
      | .deref v => insertIfAbsent c.locals (baseName v)) := by
  rw [compileAssignment] at h
  cases hrec : compileExpr defMap e c b with
  | error err =>
    rw [hrec] at h
    simp only [Bind.bind, Except.bind] at h
    exact Except.noConfusion h
  | ok res =>
    obtain ⟨r1, c1, b1⟩ := res
    rw [hrec] at h
    simp only [Bind.bind, Except.bind] at h
    obtain ⟨hl1, hs1, hc1, new1, hnew1, hterm1⟩ :=
      compileExpr_emits defMap e c b r1 c1 b1 hrec
    cases lv with
    | name s =>
      simp only [Except.ok.injEq, Prod.mk.injEq] at h
      obtain ⟨hc, hb⟩ := h
      subst hc hb
      refine ⟨hl1, hs1, ⟨new1 ++ [["MOV", r1, s]], ?_, ?_⟩, hc1⟩
      · simp [pushInstr, hnew1]
      · simp only [noTermInstr, List.all_append] at hterm1 ⊢
        rw [hterm1]
        rfl
    | deref v =>
      simp only [Except.ok.injEq, Prod.mk.injEq] at h
      obtain ⟨hc, hb⟩ := h
      subst hc hb
      obtain ⟨hl2, hs2, new2, hnew2, hterm2, -, -⟩ := compileDerefLvalue_emits v c1 b1
      have hloc2 := compileDerefLvalue_locals v c1 b1
      refine ⟨?_, ?_, ⟨new1 ++ (new2 ++ [["STORE", (compileDerefLvalue c1 v b1).1, r1]]),
        ?_, ?_⟩, ?_⟩
      · simpa [pushInstr, hl2] using hl1
      · simpa [pushInstr, hs2] using hs1
      · simp [pushInstr, hnew2, hnew1]
      · simp only [noTermInstr, List.all_append] at hterm1 hterm2 ⊢
        rw [hterm1, hterm2]
        rfl
      · rw [hloc2, hc1]

/-- Lowering a pointer assignment: same shape, registering the base of
the un-unwrapped lvalue. -/
theorem compilePtrAssignment_spec (defMap : List String) (lv : Lvalue) (e : Expr)
    (c : CSt) (b : Block) (cOut : CSt) (bOut : Block)
    (h : compilePtrAssignment defMap lv e c b = .ok (cOut, bOut)) :
    bOut.label = b.label ∧ bOut.successors = b.successors ∧
    (∃ new, bOut.instructions = b.instructions ++ new ∧ noTermInstr new = true) ∧
    cOut.locals = insertIfAbsent c.locals (baseName lv) := by
  rw [compilePtrAssignment] at h
  cases hrec : compileExpr defMap e c b with
  | error err =>
    rw [hrec] at h
    simp only [Bind.bind, Except.bind] at h
    exact Except.noConfusion h
  | ok res =>
    obtain ⟨r1, c1, b1⟩ := res
    rw [hrec] at h
    simp only [Bind.bind, Except.bind, Except.ok.injEq, Prod.mk.injEq] at h
    obtain ⟨hc, hb⟩ := h
    subst hc hb
    obtain ⟨hl1, hs1, hc1, new1, hnew1, hterm1⟩ :=
      compileExpr_emits defMap e c b r1 c1 b1 hrec
    obtain ⟨hl2, hs2, new2, hnew2, hterm2, -, -⟩ := compileDerefLvalue_emits lv c1 b1
    have hloc2 := compileDerefLvalue_locals lv c1 b1
    refine ⟨?_, ?_, ⟨new1 ++ (new2 ++ [["STORE", (compileDerefLvalue c1 lv b1).1, r1]]),
      ?_, ?_⟩, ?_⟩
    · simpa [pushInstr, hl2] using hl1
    · simpa [pushInstr, hs2] using hs1
    · simp [pushInstr, hnew2, hnew1]
    · simp only [noTermInstr, List.all_append] at hterm1 hterm2 ⊢
      rw [hterm1, hterm2]
      rfl
    · rw [hloc2, hc1]

/-- Lowering a return: untouched label/successors/locals, appended
instructions consisting of non-terminators followed by one RET. -/
theorem compileReturn_spec (defMap : List String) (e : Expr)
    (c : CSt) (b : Block) (cOut : CSt) (bOut : Block)
    (h : compileReturn defMap e c b = .ok (cOut, bOut)) :
    bOut.label = b.label ∧ bOut.successors = b.successors ∧ cOut.locals = c.locals ∧
    ∃ pre t, bOut.instructions = b.instructions ++ (pre ++ [t]) ∧
      noTermInstr pre = true ∧ isTerm t = true := by
  rw [compileReturn] at h
  cases hrec : compileExpr defMap e c b with
  | error err =>
    rw [hrec] at h
    simp only [Bind.bind, Except.bind] at h
    exact Except.noConfusion h
  | ok res =>
    obtain ⟨r1, c1, b1⟩ := res
    rw [hrec] at h
    simp only [Bind.bind, Except.bind, Except.ok.injEq, Prod.mk.injEq] at h
    obtain ⟨hc, hb⟩ := h
    subst hc hb
    obtain ⟨hl1, hs1, hc1, new1, hnew1, hterm1⟩ :=
      compileExpr_emits defMap e c b r1 c1 b1 hrec
    exact ⟨hl1, hs1, hc1, new1, ["RET", r1], by simp [pushInstr, hnew1], hterm1, rfl⟩

/-- Lowering a branch: label and locals unchanged, the two successor
labels recorded, appended non-terminators followed by one BR. -/
theorem compileBranch_spec (defMap : List String) (e : Expr) (l1 l2 : String)
    (c : CSt) (b : Block) (cOut : CSt) (bOut : Block)
    (h : compileBranch defMap e l1 l2 c b = .ok (cOut, bOut)) :
    bOut.label = b.label ∧ bOut.successors = b.successors ++ [l1, l2] ∧
    cOut.locals = c.locals ∧
    ∃ pre t, bOut.instructions = b.instructions ++ (pre ++ [t]) ∧
      noTermInstr pre = true ∧ isTerm t = true := by
  rw [compileBranch] at h
  cases hrec : compileExpr defMap e c
      { b with successors := b.successors ++ [l1, l2] } with
  | error err =>
    rw [hrec] at h
    simp only [Bind.bind, Except.bind] at h
    exact Except.noConfusion h
  | ok res =>
    obtain ⟨r1, c1, b1⟩ := res
    rw [hrec] at h
    simp only [Bind.bind, Except.bind, Except.ok.injEq, Prod.mk.injEq] at h
    obtain ⟨hc, hb⟩ := h
    subst hc hb
    obtain ⟨hl1, hs1, hc1, new1, hnew1, hterm1⟩ :=
      compileExpr_emits defMap e c
        { b with successors := b.successors ++ [l1, l2] } r1 c1 b1 hrec
    exact ⟨hl1, by simpa using hs1, hc1, new1, ["BR", r1, l1, l2],
      by simp [pushInstr, hnew1], hterm1, rfl⟩

/-- Lowering a write: untouched label/successors/locals, appended
non-terminators. -/
theorem compileWrite_spec (defMap : List String) (e1 e2 : Expr)
    (c : CSt) (b : Block) (cOut : CSt) (bOut : Block)
    (h : compileWrite defMap e1 e2 c b = .ok (cOut, bOut)) :
    bOut.label = b.label ∧ bOut.successors = b.successors ∧ cOut.locals = c.locals ∧
    ∃ new, bOut.instructions = b.instructions ++ new ∧ noTermInstr new = true := by
  rw [compileWrite] at h
  cases h1 : compileExpr defMap e1 c b with
  | error err =>
    rw [h1] at h
    simp only [Bind.bind, Except.bind] at h
    exact Except.noConfusion h
  | ok res1 =>
    obtain ⟨r1, c1, b1⟩ := res1
    rw [h1] at h
    simp only [Bind.bind, Except.bind] at h
    cases h2 : compileExpr defMap e2 c1 b1 with
    | error err =>
      rw [h2] at h
      exact Except.noConfusion h
    | ok res2 =>
      obtain ⟨r2, c2, b2⟩ := res2
      rw [h2] at h
      simp only [Except.ok.injEq, Prod.mk.injEq] at h
      obtain ⟨hc, hb⟩ := h
      subst hc hb
      have hcomb := emitsOk_trans (compileExpr_emits defMap e1 c b r1 c1 b1 h1)
        (compileExpr_emits defMap e2 c1 b1 r2 c2 b2 h2)
      obtain ⟨hl, hs, hloc, new, hnew, hterm⟩ := hcomb
      refine ⟨hl, hs, hloc, new ++ [["WRITE", r1, r2]], ?_, ?_⟩
      · simp [pushInstr, hnew]
      · simp only [noTermInstr, List.all_append] at hterm ⊢
        rw [hterm]
        rfl

/-- One lowered statement: label preserved, successors only appended,
the local-slot list updated exactly by `localsLineEffect`, and the
appended instructions are non-terminators, with exactly one final
terminator when and only when the line reports termination. -/
theorem compileLine_spec (defMap : List String) (line : Line)
    (c : CSt) (b : Block) (term : Bool) (cOut : CSt) (bOut : Block)
    (h : compileLine defMap line c b = .ok (term, cOut, bOut)) :
    bOut.label = b.label ∧
    (∃ su, bOut.successors = b.successors ++ su) ∧
    cOut.locals = localsLineEffect line c.locals ∧
    ∃ new, bOut.instructions = b.instructions ++ new ∧
      (term = false → noTermInstr new = true) ∧
      (term = true → ∃ pre t, new = pre ++ [t] ∧ noTermInstr pre = true ∧
        isTerm t = true) := by
  cases line with
  | labelDef v =>
    rw [compileLine] at h
    exact Except.noConfusion h
  | assignment lv e =>
    rw [compileLine] at h
    cases hrec : compileAssignment defMap lv e c b with
    | error err =>
      rw [hrec] at h
      simp only [Bind.bind, Except.bind] at h
      exact Except.noConfusion h
    | ok res =>
      obtain ⟨c1, b1⟩ := res
      rw [hrec] at h
      simp only [Bind.bind, Except.bind, Except.ok.injEq, Prod.mk.injEq] at h
      obtain ⟨ht, hc, hb⟩ := h
      subst hc hb
      obtain ⟨hl, hs, ⟨new, hnew, hterm⟩, hloc⟩ :=
        compileAssignment_spec defMap lv e c b c1 b1 hrec
      refine ⟨hl, ⟨[], by simp [hs]⟩, ?_, new, hnew, fun _ => hterm, fun hcontra => ?_⟩
      · rw [hloc]
        cases lv <;> rfl
      · rw [← ht] at hcontra
        exact absurd hcontra (by simp)
  | ptrAssignment lv e =>
    rw [compileLine] at h
    cases hrec : compilePtrAssignment defMap lv e c b with
    | error err =>
      rw [hrec] at h
      simp only [Bind.bind, Except.bind] at h
      exact Except.noConfusion h
    | ok res =>
      obtain ⟨c1, b1⟩ := res
      rw [hrec] at h
      simp only [Bind.bind, Except.bind, Except.ok.injEq, Prod.mk.injEq] at h
      obtain ⟨ht, hc, hb⟩ := h
      subst hc hb
      obtain ⟨hl, hs, ⟨new, hnew, hterm⟩, hloc⟩ :=
        compilePtrAssignment_spec defMap lv e c b c1 b1 hrec
      refine ⟨hl, ⟨[], by simp [hs]⟩, by rw [hloc]; rfl, new, hnew,
        fun _ => hterm, fun hcontra => ?_⟩
      rw [← ht] at hcontra
      exact absurd hcontra (by simp)
  | ret e =>
    rw [compileLine] at h
    cases hrec : compileReturn defMap e c b with
    | error err =>
      rw [hrec] at h
      simp only [Bind.bind, Except.bind] at h
      exact Except.noConfusion h
    | ok res =>
      obtain ⟨c1, b1⟩ := res
      rw [hrec] at h
      simp only [Bind.bind, Except.bind, Except.ok.injEq, Prod.mk.injEq] at h
      obtain ⟨ht, hc, hb⟩ := h
      subst hc hb
      obtain ⟨hl, hs, hloc, pre, t, hnew, hpre, hterm⟩ :=
        compileReturn_spec defMap e c b c1 b1 hrec
      refine ⟨hl, ⟨[], by simp [hs]⟩, by rw [hloc]; rfl, pre ++ [t], hnew,
        fun hcontra => ?_, fun _ => ⟨pre, t, rfl, hpre, hterm⟩⟩
      rw [← ht] at hcontra
      exact absurd hcontra (by simp)
  | branch e l1 l2 =>
    rw [compileLine] at h
    cases hrec : compileBranch defMap e l1 l2 c b with
    | error err =>
      rw [hrec] at h
      simp only [Bind.bind, Except.bind] at h
      exact Except.noConfusion h
    | ok res =>
      obtain ⟨c1, b1⟩ := res
      rw [hrec] at h
      simp only [Bind.bind, Except.bind, Except.ok.injEq, Prod.mk.injEq] at h
      obtain ⟨ht, hc, hb⟩ := h
      subst hc hb
      obtain ⟨hl, hs, hloc, pre, t, hnew, hpre, hterm⟩ :=
        compileBranch_spec defMap e l1 l2 c b c1 b1 hrec
      refine ⟨hl, ⟨[l1, l2], hs⟩, by rw [hloc]; rfl, pre ++ [t], hnew,
        fun hcontra => ?_, fun _ => ⟨pre, t, rfl, hpre, hterm⟩⟩
      rw [← ht] at hcontra
      exact absurd hcontra (by simp)
  | write e1 e2 =>
    rw [compileLine] at h
    cases hrec : compileWrite defMap e1 e2 c b with
    | error err =>
      rw [hrec] at h
      simp only [Bind.bind, Except.bind] at h
      exact Except.noConfusion h
    | ok res =>
      obtain ⟨c1, b1⟩ := res
      rw [hrec] at h
      simp only [Bind.bind, Except.bind, Except.ok.injEq, Prod.mk.injEq] at h
      obtain ⟨ht, hc, hb⟩ := h
      subst hc hb
      obtain ⟨hl, hs, hloc, new, hnew, hterm⟩ :=
        compileWrite_spec defMap e1 e2 c b c1 b1 hrec
      refine ⟨hl, ⟨[], by simp [hs]⟩, by rw [hloc]; rfl, new, hnew,
        fun _ => hterm, fun hcontra => ?_⟩
      rw [← ht] at hcontra
      exact absurd hcontra (by simp)
  | expr v =>
    rw [compileLine] at h
    cases hrec : compileVal defMap v c b with
    | error err =>
      rw [hrec] at h
      simp only [Bind.bind, Except.bind] at h
      exact Except.noConfusion h
    | ok res =>
      obtain ⟨r1, c1, b1⟩ := res
      rw [hrec] at h
      simp only [Bind.bind, Except.bind, Except.ok.injEq, Prod.mk.injEq] at h
      obtain ⟨ht, hc, hb⟩ := h
      subst hc hb
      obtain ⟨hl, hs, hloc, new, hnew, hterm⟩ :=
        compileVal_emits defMap v c b r1 c1 b1 hrec
      refine ⟨hl, ⟨[], by simp [hs]⟩, by rw [hloc]; rfl, new, hnew,
        fun _ => hterm, fun hcontra => ?_⟩
      rw [← ht] at hcontra
      exact absurd hcontra (by simp)

/-! The block-builder invariant. -/

/-- Non-terminator lists concatenate. -/
theorem noTermInstr_append (a b : List Instr) :
    noTermInstr (a ++ b) = (noTermInstr a && noTermInstr b) := by
  simp [noTermInstr, List.all_append]

/-- Appending one terminator to a terminator-free list is well
terminated. -/
theorem wellTerminated_concat (xs : List Instr) (t : Instr)
    (hxs : noTermInstr xs = true) (ht : isTerm t = true) :
    wellTerminated (xs ++ [t]) = true := by
  simp only [wellTerminated, List.getLast?_concat, List.dropLast_concat, ht, hxs]
  rfl

/-- A well-terminated list has no instruction after a terminator. -/
theorem noInstrAfterTerm_of_wellTerminated (l : List Instr)
    (h : wellTerminated l = true) : noInstrAfterTerm l = true := by
  unfold wellTerminated at h
  cases hl : l.getLast? with
  | none => rw [hl] at h; exact absurd h (by simp)
  | some t =>
    rw [hl] at h
    simp only [Bool.and_eq_true] at h
    exact h.2

/-- A terminator-free list has no instruction after a terminator. -/
theorem noInstrAfterTerm_of_noTerm (l : List Instr)
    (h : noTermInstr l = true) : noInstrAfterTerm l = true := by
  unfold noInstrAfterTerm noTermInstr
  unfold noTermInstr at h
  rw [List.all_eq_true] at h ⊢
  intro i hi
  exact h i ((List.dropLast_sublist l).subset hi)

/-- The initial loop state satisfies the invariant. -/
theorem loopInv_init (d : Definition) (cs : Constants) :
    LoopInv (initLoopSt d cs) := by
  refine ⟨?_, ?_, ?_, ?_, ?_, ?_, ?_, ?_⟩ <;>
    simp [initLoopSt, LoopInv, Block.new, noTermInstr]

/-- Processing a label definition preserves the invariant, provided the
remapped name is fresh, differs from `init`, and the fall-through guard
passed. -/
theorem loopInv_label_step (s : LoopSt) (labelName : String) (hInv : LoopInv s)
    (hdup : labelName ∉ s.visitedLabels) (hlabel : labelName ≠ "init")
    (hguard : (!s.blockTerminated && s.hasPrevBlock) = false) :
    LoopInv { blocks := s.blocks ++ [s.currentBlock], currentBlock := Block.new labelName,
              hasPrevBlock := true, blockTerminated := false,
              visitedLabels := s.visitedLabels ++ [labelName], cst := s.cst } := by
  obtain ⟨hprev, hdrop, hafter, hwt, hnt, hnodup, hmem, hvis⟩ := hInv
  have hcur_after : noInstrAfterTerm s.currentBlock.instructions = true := by
    cases hbt : s.blockTerminated with
    | true => exact noInstrAfterTerm_of_wellTerminated _ (hwt hbt)
    | false => exact noInstrAfterTerm_of_noTerm _ (hnt hbt)
  have hnotin : labelName ∉ s.blocks.map Block.label ++ [s.currentBlock.label] := by
    intro hmem'
    rcases hmem _ hmem' with h1 | h1
    · exact hlabel h1
    · exact hdup h1
  refine ⟨by simp, ?_, ?_, ?_, ?_, ?_, ?_, ?_⟩
  · intro b hb
    cases hbs : s.blocks with
    | nil => simp [hbs] at hb
    | cons x xs =>
      rw [hbs] at hb
      simp only [List.cons_append, List.drop_succ_cons, List.drop_zero] at hb
      rcases List.mem_append.mp hb with h1 | h1
      · apply hdrop
        simp [hbs, h1]
      · simp only [List.mem_singleton] at h1
        subst h1
        have hpb : s.hasPrevBlock = true := hprev.mpr (by simp [hbs])
        have hbt : s.blockTerminated = true := by
          cases hbt : s.blockTerminated with
          | true => rfl
          | false => rw [hbt, hpb] at hguard; exact absurd hguard (by simp)
        exact hwt hbt
  · intro b hb
    rcases List.mem_append.mp hb with h1 | h1
    · exact hafter b h1
    · simp only [List.mem_singleton] at h1
      subst h1
      exact hcur_after
  · intro hcontra
    exact absurd hcontra (by simp)
  · intro _
    rfl
  · have hN : ((s.blocks.map Block.label ++ [s.currentBlock.label]) ++ [labelName]).Nodup := by
      rw [List.nodup_append]
      refine ⟨hnodup, List.nodup_singleton _, ?_⟩
      intro a ha hb
      simp only [List.mem_singleton] at hb
      subst hb
      exact hnotin ha
    simpa [Block.new, List.append_assoc] using hN
  · intro l hl
    have hl2 : l ∈ (s.blocks.map Block.label ++ [s.currentBlock.label]) ++ [labelName] := by
      simpa [Block.new, List.append_assoc] using hl
    rcases List.mem_append.mp hl2 with h1 | h1
    · rcases hmem _ h1 with h2 | h2
      · exact Or.inl h2
      · exact Or.inr (List.mem_append.mpr (Or.inl h2))
    · simp only [List.mem_singleton] at h1
      subst h1
      exact Or.inr (List.mem_append.mpr (Or.inr (by simp)))
  · intro l hl
    rcases List.mem_append.mp hl with h1 | h1
    · exact hvis l h1
    · simp only [List.mem_singleton] at h1
      subst h1
      exact hlabel

/-- Lowering one non-label statement into the open block preserves the
invariant. -/
theorem loopInv_stmt_step (defMap : List String) (line : Line) (s : LoopSt)
    (term : Bool) (cst1 : CSt) (blk1 : Block) (hInv : LoopInv s)
    (hterm : s.blockTerminated = false)
    (hline : compileLine defMap line s.cst s.currentBlock = .ok (term, cst1, blk1)) :
    LoopInv { s with currentBlock := blk1,
                     blockTerminated := s.blockTerminated || term, cst := cst1 } := by
  obtain ⟨hprev, hdrop, hafter, hwt, hnt, hnodup, hmem, hvis⟩ := hInv
  obtain ⟨hl, ⟨su, hsu⟩, hloc, new, hnew, hnewf, hnewt⟩ :=
    compileLine_spec defMap line s.cst s.currentBlock term cst1 blk1 hline
  have hcurnt : noTermInstr s.currentBlock.instructions = true := hnt hterm
  rw [hterm, Bool.false_or]
  refine ⟨by simpa using hprev, hdrop, hafter, ?_, ?_, ?_, ?_, hvis⟩
  · intro hbt
    simp only at hbt
    obtain ⟨pre, t, hpt, hpre, ht⟩ := hnewt hbt
    simp only [hnew, hpt]
    rw [show s.currentBlock.instructions ++ (pre ++ [t]) =
      (s.currentBlock.instructions ++ pre) ++ [t] by simp [List.append_assoc]]
    apply wellTerminated_concat
    · rw [noTermInstr_append, hcurnt, hpre]
      rfl
    · exact ht
  · intro hbf
    simp only at hbf
    simp only [hnew]
    rw [noTermInstr_append, hcurnt, hnewf hbf]
    rfl
  · simpa [hl] using hnodup
  · intro l hl'
    simp only at hl'
    rw [hl] at hl'
    exact hmem l hl'

/-- Running the statement loop preserves the invariant. -/
theorem compileLines_inv (defMap : List String) : ∀ (lines : List Line) (s sOut : LoopSt),
    compileLines defMap lines s = .ok sOut → LoopInv s → LoopInv sOut := by
  intro lines
  induction lines with
  | nil =>
    intro s sOut h hInv
    rw [compileLines] at h
    injection h with h
    subst h
    exact hInv
  | cons line rest ih =>
    intro s sOut h hInv
    cases hline : line with
    | labelDef v =>
      subst hline
      rw [compileLines] at h
      by_cases hdup : (if v = "init" then "init1" else v) ∈ s.visitedLabels
      · rw [if_pos hdup] at h
        exact absurd h (by simp)
      · rw [if_neg hdup] at h
        by_cases hguard : (!s.blockTerminated && s.hasPrevBlock) = true
        · rw [if_pos hguard] at h
          exact absurd h (by simp)
        · rw [if_neg hguard] at h
          apply ih _ sOut h
          apply loopInv_label_step s _ hInv hdup ?_ (by simpa using hguard)
          by_cases hv : v = "init"
          · rw [if_pos hv]; decide
          · rw [if_neg hv]; exact hv
    | assignment lv e =>
      subst hline
      simp only [compileLines] at h
      cases hterm : s.blockTerminated with
      | true =>
        rw [if_pos hterm] at h
        exact absurd h (by simp)
      | false =>
        rw [if_neg (by simp [hterm])] at h
        cases hstep : compileLine defMap (.assignment lv e) s.cst s.currentBlock with
        | error err =>
          rw [hstep] at h
          exact Except.noConfusion h
        | ok res =>
          obtain ⟨term, cst1, blk1⟩ := res
          rw [hstep] at h
          exact ih _ sOut h (loopInv_stmt_step defMap _ s term cst1 blk1 hInv hterm hstep)
    | ptrAssignment lv e =>
      subst hline
      simp only [compileLines] at h
      cases hterm : s.blockTerminated with
      | true =>
        rw [if_pos hterm] at h
        exact absurd h (by simp)
      | false =>
        rw [if_neg (by simp [hterm])] at h
        cases hstep : compileLine defMap (.ptrAssignment lv e) s.cst s.currentBlock with
        | error err =>
          rw [hstep] at h
          exact Except.noConfusion h
        | ok res =>
          obtain ⟨term, cst1, blk1⟩ := res
          rw [hstep] at h
          exact ih _ sOut h (loopInv_stmt_step defMap _ s term cst1 blk1 hInv hterm hstep)
    | ret e =>
      subst hline
      simp only [compileLines] at h
      cases hterm : s.blockTerminated with
      | true =>
        rw [if_pos hterm] at h
        exact absurd h (by simp)
      | false =>
        rw [if_neg (by simp [hterm])] at h
        cases hstep : compileLine defMap (.ret e) s.cst s.currentBlock with
        | error err =>
          rw [hstep] at h
          exact Except.noConfusion h
        | ok res =>
          obtain ⟨term, cst1, blk1⟩ := res
          rw [hstep] at h
          exact ih _ sOut h (loopInv_stmt_step defMap _ s term cst1 blk1 hInv hterm hstep)
    | branch e l1 l2 =>
      subst hline
      simp only [compileLines] at h
      cases hterm : s.blockTerminated with
      | true =>
        rw [if_pos hterm] at h
        exact absurd h (by simp)
      | false =>
        rw [if_neg (by simp [hterm])] at h
        cases hstep : compileLine defMap (.branch e l1 l2) s.cst s.currentBlock with
        | error err =>
          rw [hstep] at h
          exact Except.noConfusion h
        | ok res =>
          obtain ⟨term, cst1, blk1⟩ := res
          rw [hstep] at h
          exact ih _ sOut h (loopInv_stmt_step defMap _ s term cst1 blk1 hInv hterm hstep)
    | write e1 e2 =>
      subst hline
      simp only [compileLines] at h
      cases hterm : s.blockTerminated with
      | true =>
        rw [if_pos hterm] at h
        exact absurd h (by simp)
      | false =>
        rw [if_neg (by simp [hterm])] at h
        cases hstep : compileLine defMap (.write e1 e2) s.cst s.currentBlock with
        | error err =>
          rw [hstep] at h
          exact Except.noConfusion h
        | ok res =>
          obtain ⟨term, cst1, blk1⟩ := res
          rw [hstep] at h
          exact ih _ sOut h (loopInv_stmt_step defMap _ s term cst1 blk1 hInv hterm hstep)
    | expr v =>
      subst hline
      simp only [compileLines] at h
      cases hterm : s.blockTerminated with
      | true =>
        rw [if_pos hterm] at h
        exact absurd h (by simp)
      | false =>
        rw [if_neg (by simp [hterm])] at h
        cases hstep : compileLine defMap (.expr v) s.cst s.currentBlock with
        | error err =>
          rw [hstep] at h
          exact Except.noConfusion h
        | ok res =>
          obtain ⟨term, cst1, blk1⟩ := res
          rw [hstep] at h
          exact ih _ sOut h (loopInv_stmt_step defMap _ s term cst1 blk1 hInv hterm hstep)

/-! Inversion of `compileFunction` and claims C1, C2. -/

/-- Successful function compilation decomposes into a successful
statement loop, a successful label post-pass, and field assembly. -/
theorem compileFunction_parts (d : Definition) (m : List String) (cs : Constants)
    (F : Func) (cs' : Constants)
    (h : compileFunction d m cs = .ok (F, cs')) :
    ∃ s, compileLines m d.lines (initLoopSt d cs) = .ok s ∧
      checkAllBlocks (finalizeBlocks s) (finalizeBlocks s) = .ok () ∧
      F = { identifier := d.identifier, inTypes := d.inTypes, outType := d.outType,
            blocks := finalizeBlocks s, locals := s.cst.locals } ∧
      cs' = s.cst.constants := by
  rw [compileFunction] at h
  cases hs : compileLines m d.lines (initLoopSt d cs) with
  | error e =>
    rw [hs] at h
    simp only [Bind.bind, Except.bind] at h
    exact Except.noConfusion h
  | ok s =>
    rw [hs] at h
    simp only [Bind.bind, Except.bind] at h
    cases hc : checkAllBlocks (finalizeBlocks s) (finalizeBlocks s) with
    | error e =>
      rw [hc] at h
      exact Except.noConfusion h
    | ok u =>
      cases u
      rw [hc] at h
      simp only [Except.ok.injEq, Prod.mk.injEq] at h
      obtain ⟨hF, hcs⟩ := h
      exact ⟨s, rfl, hc, hF.symm, hcs.symm⟩

/-- The pushed final block is always well terminated. -/
theorem finalize_last (s : LoopSt) (hInv : LoopInv s) :
    finalizeBlocks s = s.blocks ++
      [if s.blockTerminated then s.currentBlock
       else pushInstr s.currentBlock ["RET", "0"]] ∧
    wellTerminated (if s.blockTerminated then s.currentBlock
       else pushInstr s.currentBlock ["RET", "0"]).instructions = true := by
  obtain ⟨hprev, hdrop, hafter, hwt, hnt, hnodup, hmem, hvis⟩ := hInv
  constructor
  · rw [finalizeBlocks]
    cases hbt : s.blockTerminated <;> simp
  · cases hbt : s.blockTerminated with
    | true => simpa using hwt hbt
    | false =>
      simp only [if_false, Bool.false_eq_true, pushInstr]
      exact wellTerminated_concat _ _ (hnt hbt) rfl

/-- C2 (amended): in a successfully compiled function, every basic
block except possibly the first ends with exactly one RET or BR, the
final block always does (via the synthetic `RET '0'` if the stream never
terminated), and no block continues past a RET or BR. -/
theorem claim_C2 (d : Definition) (m : List String) (cs : Constants)
    (F : Func) (cs' : Constants) (h : compileFunction d m cs = .ok (F, cs')) :
    blocksWellFormed F = true := by
  obtain ⟨s, hs, hchk, hF, hcs⟩ := compileFunction_parts d m cs F cs' h
  have hInv := compileLines_inv m d.lines _ s hs (loopInv_init d cs)
  obtain ⟨hfin, hlast⟩ := finalize_last s hInv
  obtain ⟨hprev, hdrop, hafter, hwt, hnt, hnodup, hmem, hvis⟩ := hInv
  set cur := if s.blockTerminated then s.currentBlock
    else pushInstr s.currentBlock ["RET", "0"] with hcur
  have hcur_after : noInstrAfterTerm cur.instructions = true :=
    noInstrAfterTerm_of_wellTerminated _ hlast
  have hblocks : F.blocks = s.blocks ++ [cur] := by rw [hF]; exact hfin
  rw [blocksWellFormed]
  simp only [Bool.and_eq_true]
  refine ⟨⟨?_, ?_⟩, ?_⟩
  · cases hbs : s.blocks with
    | nil =>
      rw [hblocks, hbs]
      simp
    | cons x xs =>
      rw [hblocks, hbs]
      simp only [List.cons_append]
      rw [List.all_eq_true]
      intro b hb
      rcases List.mem_append.mp hb with h1 | h1
      · apply hdrop
        simp [hbs, h1]
      · simp only [List.mem_singleton] at h1
        subst h1
        exact hlast
  · rw [hblocks]
    rw [List.getLast?_concat]
    exact hlast
  · rw [hblocks, List.all_eq_true]
    intro b hb
    rcases List.mem_append.mp hb with h1 | h1
    · exact hafter b h1
    · simp only [List.mem_singleton] at h1
      subst h1
      exact hcur_after

/-- C2, counterexample to the claim as stated: this function compiles
successfully, yet its first block ends in MOV, not RET or BR. -/
theorem claim_C2_counterexample :
    compileFunction exC2def ["g"] ⟨[], []⟩ =
      .ok ({ identifier := "g", inTypes := [], outType := "u8",
             blocks := [{ label := "init", instructions := [["MOV", "5", "y"]],
                          successors := [] },
                        { label := "l2", instructions := [["RET", "7"]],
                          successors := [] }],
             locals := [] }, ⟨[], []⟩) ∧
    wellTerminated [["MOV", "5", "y"]] = false := by
  constructor
  · decide
  · decide

/-- C2, witness: the amended statement applied to a concrete function. -/
theorem claim_C2_witness :
    blocksWellFormed
      { identifier := "h", inTypes := [], outType := "u8",
        blocks := [{ label := "init", instructions := [["RET", "1"]], successors := [] },
                   { label := "next", instructions := [["RET", "2"]], successors := [] }],
        locals := [] } = true :=
  claim_C2 exC2okdef ["h"] ⟨[], []⟩ _ ⟨[], []⟩ (by decide)

/-- C1 (amended): a label definition reached while the open block is
unterminated fails with `FallthroughBlock` naming that block only when
the (possibly remapped) label is not a duplicate and at least one label
definition was already processed; when no label was processed yet — the
open block is the implicit entry block — the label is accepted and the
entry block is pushed as it stands. -/
theorem claim_C1 (defMap : List String) (v : String) (rest : List Line) (s : LoopSt) :
    ((if v = "init" then "init1" else v) ∉ s.visitedLabels →
      s.blockTerminated = false → s.hasPrevBlock = true →
      compileLines defMap (Line.labelDef v :: rest) s =
        .error (.fallthroughBlock s.currentBlock.label)) ∧
    ((if v = "init" then "init1" else v) ∉ s.visitedLabels →
      s.hasPrevBlock = false →
      compileLines defMap (Line.labelDef v :: rest) s =
        compileLines defMap rest
          { blocks := s.blocks ++ [s.currentBlock],
            currentBlock := Block.new (if v = "init" then "init1" else v),
            hasPrevBlock := true, blockTerminated := false,
            visitedLabels := s.visitedLabels ++ [if v = "init" then "init1" else v],
            cst := s.cst }) := by
  constructor
  · intro hdup hbt hpb
    rw [compileLines, if_neg hdup, if_pos (by rw [hbt, hpb]; rfl)]
  · intro hdup hpb
    rw [compileLines, if_neg hdup, if_neg (by rw [hpb]; simp)]

/-- C1, counterexample to the claim as stated: `init` is unterminated
when `l1:` appears, yet compilation succeeds instead of failing with
`FallthroughBlock("init")`; moreover, at a label that is also a
duplicate, an unterminated non-entry block fails with `DuplicateLabel`
rather than `FallthroughBlock`. -/
theorem claim_C1_counterexample :
    compileFunction exC1def ["f"] ⟨[], []⟩ =
      .ok ({ identifier := "f", inTypes := [], outType := "u8",
             blocks := [{ label := "init",
                          instructions := [["ADD", "1", "2", "%0"], ["MOV", "%0", "x"]],
                          successors := [] },
                        { label := "l1", instructions := [["RET", "x"]],
                          successors := [] }],
             locals := [] }, ⟨[], []⟩) ∧
    compileFunction exC1def ["f"] ⟨[], []⟩ ≠ .error (.fallthroughBlock "init") ∧
    compileLines [] [Line.labelDef "a"]
      { blocks := [Block.new "init"],
        currentBlock := { label := "a", instructions := [["MOV", "1", "x"]],
                          successors := [] },
        hasPrevBlock := true, blockTerminated := false, visitedLabels := ["a"],
        cst := { registerCounter := 0, locals := [],
                 constants := { data := [], symbols := [] } } } =
      .error (.duplicateLabel "a") := by
  refine ⟨?_, ?_, ?_⟩
  · decide
  · decide
  · decide

/-- C1, witness: the amended statement applied at concrete states, one
with a previous block (the error fires, naming the open block) and one
without (the label is accepted). -/
theorem claim_C1_witness :
    compileLines [] [Line.labelDef "l1"]
      { blocks := [Block.new "init"],
        currentBlock := { label := "b0", instructions := [["MOV", "1", "x"]],
                          successors := [] },
        hasPrevBlock := true, blockTerminated := false, visitedLabels := ["b0"],
        cst := { registerCounter := 0, locals := [], constants := ⟨[], []⟩ } } =
      .error (.fallthroughBlock "b0") ∧
    compileLines [] [Line.labelDef "l1"]
      { blocks := [], currentBlock := Block.new "init",
        hasPrevBlock := false, blockTerminated := false, visitedLabels := [],
        cst := { registerCounter := 0, locals := [], constants := ⟨[], []⟩ } } =
      compileLines [] []
        { blocks := [Block.new "init"], currentBlock := Block.new "l1",
          hasPrevBlock := true, blockTerminated := false, visitedLabels := ["l1"],
          cst := { registerCounter := 0, locals := [], constants := ⟨[], []⟩ } } := by
  constructor
  · exact (claim_C1 [] "l1" [] _).1 (by decide) rfl rfl
  · exact (claim_C1 [] "l1" [] _).2 (by decide) rfl

/-! Claim C9: the local-slot list. -/

/-- The statement loop computes exactly the spec-side local slots. -/
theorem compileLines_locals (defMap : List String) : ∀ (lines : List Line) (s sOut : LoopSt),
    compileLines defMap lines s = .ok sOut →
    sOut.cst.locals = localsSpecAux lines s.cst.locals := by
  intro lines
  induction lines with
  | nil =>
    intro s sOut h
    rw [compileLines] at h
    injection h with h
    subst h
    rfl
  | cons line rest ih =>
    intro s sOut h
    cases hline : line with
    | labelDef v =>
      subst hline
      rw [compileLines] at h
      by_cases hdup : (if v = "init" then "init1" else v) ∈ s.visitedLabels
      · rw [if_pos hdup] at h
        exact absurd h (by simp)
      · rw [if_neg hdup] at h
        by_cases hguard : (!s.blockTerminated && s.hasPrevBlock) = true
        · rw [if_pos hguard] at h
          exact absurd h (by simp)
        · rw [if_neg hguard] at h
          have hrec := ih _ sOut h
          rw [localsSpecAux, hrec]
          rfl
    | assignment lv e =>
      subst hline
      simp only [compileLines] at h
      cases hterm : s.blockTerminated with
      | true =>
        rw [if_pos hterm] at h
        exact absurd h (by simp)
      | false =>
        rw [if_neg (by simp [hterm])] at h
        cases hstep : compileLine defMap (.assignment lv e) s.cst s.currentBlock with
        | error err =>
          rw [hstep] at h
          exact Except.noConfusion h
        | ok res =>
          obtain ⟨term, cst1, blk1⟩ := res
          rw [hstep] at h
          have hrec := ih _ sOut h
          have hloc := (compileLine_spec defMap _ s.cst s.currentBlock
            term cst1 blk1 hstep).2.2.1
          rw [localsSpecAux, hrec]
          show localsSpecAux rest cst1.locals = _
          rw [hloc]
    | ptrAssignment lv e =>
      subst hline
      simp only [compileLines] at h
      cases hterm : s.blockTerminated with
      | true =>
        rw [if_pos hterm] at h
        exact absurd h (by simp)
      | false =>
        rw [if_neg (by simp [hterm])] at h
        cases hstep : compileLine defMap (.ptrAssignment lv e) s.cst s.currentBlock with
        | error err =>
          rw [hstep] at h
          exact Except.noConfusion h
        | ok res =>
          obtain ⟨term, cst1, blk1⟩ := res
          rw [hstep] at h
          have hrec := ih _ sOut h
          have hloc := (compileLine_spec defMap _ s.cst s.currentBlock
            term cst1 blk1 hstep).2.2.1
          rw [localsSpecAux, hrec]
          show localsSpecAux rest cst1.locals = _
          rw [hloc]
    | ret e =>
      subst hline
      simp only [compileLines] at h
      cases hterm : s.blockTerminated with
      | true =>
        rw [if_pos hterm] at h
        exact absurd h (by simp)
      | false =>
        rw [if_neg (by simp [hterm])] at h
        cases hstep : compileLine defMap (.ret e) s.cst s.currentBlock with
        | error err =>
          rw [hstep] at h
          exact Except.noConfusion h
        | ok res =>
          obtain ⟨term, cst1, blk1⟩ := res
          rw [hstep] at h
          have hrec := ih _ sOut h
          have hloc := (compileLine_spec defMap _ s.cst s.currentBlock
            term cst1 blk1 hstep).2.2.1
          rw [localsSpecAux, hrec]
          show localsSpecAux rest cst1.locals = _
          rw [hloc]
    | branch e l1 l2 =>
      subst hline
      simp only [compileLines] at h
      cases hterm : s.blockTerminated with
      | true =>
        rw [if_pos hterm] at h
        exact absurd h (by simp)
      | false =>
        rw [if_neg (by simp [hterm])] at h
        cases hstep : compileLine defMap (.branch e l1 l2) s.cst s.currentBlock with
        | error err =>
          rw [hstep] at h
          exact Except.noConfusion h
        | ok res =>
          obtain ⟨term, cst1, blk1⟩ := res
          rw [hstep] at h
          have hrec := ih _ sOut h
          have hloc := (compileLine_spec defMap _ s.cst s.currentBlock
            term cst1 blk1 hstep).2.2.1
          rw [localsSpecAux, hrec]
          show localsSpecAux rest cst1.locals = _
          rw [hloc]
    | write e1 e2 =>
      subst hline
      simp only [compileLines] at h
      cases hterm : s.blockTerminated with
      | true =>
        rw [if_pos hterm] at h
        exact absurd h (by simp)
      | false =>
        rw [if_neg (by simp [hterm])] at h
        cases hstep : compileLine defMap (.write e1 e2) s.cst s.currentBlock with
        | error err =>
          rw [hstep] at h
          exact Except.noConfusion h
        | ok res =>
          obtain ⟨term, cst1, blk1⟩ := res
          rw [hstep] at h
          have hrec := ih _ sOut h
          have hloc := (compileLine_spec defMap _ s.cst s.currentBlock
            term cst1 blk1 hstep).2.2.1
          rw [localsSpecAux, hrec]
          show localsSpecAux rest cst1.locals = _
          rw [hloc]
    | expr v =>
      subst hline
      simp only [compileLines] at h
      cases hterm : s.blockTerminated with
      | true =>
        rw [if_pos hterm] at h
        exact absurd h (by simp)
      | false =>
        rw [if_neg (by simp [hterm])] at h
        cases hstep : compileLine defMap (.expr v) s.cst s.currentBlock with
        | error err =>
          rw [hstep] at h
          exact Except.noConfusion h
        | ok res =>
          obtain ⟨term, cst1, blk1⟩ := res
          rw [hstep] at h
          have hrec := ih _ sOut h
          have hloc := (compileLine_spec defMap _ s.cst s.currentBlock
            term cst1 blk1 hstep).2.2.1
          rw [localsSpecAux, hrec]
          show localsSpecAux rest cst1.locals = _
          rw [hloc]

/-- First-use insertion preserves distinctness. -/
theorem insertIfAbsent_nodup (l : List String) (s : String) (h : l.Nodup) :
    (insertIfAbsent l s).Nodup := by
  unfold insertIfAbsent
  split
  · exact h
  · rename_i hmem
    rw [List.nodup_append]
    refine ⟨h, List.nodup_singleton _, ?_⟩
    intro a ha hb
    simp only [List.mem_singleton] at hb
    subst hb
    exact hmem ha

/-- The spec-side local slots are distinct. -/
theorem localsSpecAux_nodup : ∀ (lines : List Line) (acc : List String),
    acc.Nodup → (localsSpecAux lines acc).Nodup := by
  intro lines
  induction lines with
  | nil => intro acc hacc; exact hacc
  | cons line rest ih =>
    intro acc hacc
    rw [localsSpecAux]
    apply ih
    cases line with
    | assignment lv e =>
      cases lv with
      | name s => exact hacc
      | deref v => exact insertIfAbsent_nodup _ _ hacc
    | ptrAssignment lv e => exact insertIfAbsent_nodup _ _ hacc
    | labelDef v => exact hacc
    | ret e => exact hacc
    | branch e l1 l2 => exact hacc
    | write e1 e2 => exact hacc
    | expr v => exact hacc

/-- C9: the local-slot list of a compiled function is exactly the
bases of dereferenced-lvalue and pointer-assignment stores, in first-use
order and without duplicates; names assigned only by MOV never appear. -/
theorem claim_C9 (d : Definition) (m : List String) (cs : Constants) (F : Func)
    (cs' : Constants) (h : compileFunction d m cs = .ok (F, cs')) :
    F.locals = localsSpec d.lines ∧ F.locals.Nodup := by
  obtain ⟨s, hs, hchk, hF, hcs⟩ := compileFunction_parts d m cs F cs' h
  have hloc := compileLines_locals m d.lines _ s hs
  have hFl : F.locals = s.cst.locals := by rw [hF]
  rw [hFl, hloc]
  exact ⟨rfl, localsSpecAux_nodup _ _ List.nodup_nil⟩

/-- C9, witness: the claim applied to a function with one store
through `p`;  the compiled local-slot list is exactly `["p"]`. -/
theorem claim_C9_witness :
    ({ identifier := "w", inTypes := [], outType := "u8",
       blocks := [{ label := "init",
                    instructions := [["STORE", "p", "1"], ["RET", "0"]],
                    successors := [] }],
       locals := ["p"] } : Func).locals = localsSpec exC9def.lines ∧
    ({ identifier := "w", inTypes := [], outType := "u8",
       blocks := [{ label := "init",
                    instructions := [["STORE", "p", "1"], ["RET", "0"]],
                    successors := [] }],
       locals := ["p"] } : Func).locals.Nodup :=
  claim_C9 exC9def ["w"] ⟨[], []⟩ _ ⟨[], []⟩ (by decide)

/-! Claim C7: label integrity. -/

/-- A successful successor check means every successor resolves. -/
theorem checkSuccessors_ok (blocks : List Block) : ∀ (succs : List String),
    checkSuccessors blocks succs = .ok () →
    ∀ succ ∈ succs, blockExists blocks succ = true := by
  intro succs
  induction succs with
  | nil => intro _ succ hsucc; exact absurd hsucc (by simp)
  | cons x xs ih =>
    intro h succ hsucc
    rw [checkSuccessors] at h
    by_cases hex : blockExists blocks x = true
    · rw [if_pos hex] at h
      rcases List.mem_cons.mp hsucc with h1 | h1
      · subst h1; exact hex
      · exact ih h succ h1
    · rw [if_neg hex] at h
      exact Except.noConfusion h

/-- A successful post-pass means every successor of every block
resolves. -/
theorem checkAllBlocks_ok (blocks : List Block) : ∀ (bs : List Block),
    checkAllBlocks blocks bs = .ok () →
    ∀ b ∈ bs, ∀ succ ∈ b.successors, blockExists blocks succ = true := by
  intro bs
  induction bs with
  | nil => intro _ b hb; exact absurd hb (by simp)
  | cons x xs ih =>
    intro h b hb succ hsucc
    rw [checkAllBlocks] at h
    cases hcs : checkSuccessors blocks x.successors with
    | error e =>
      rw [hcs] at h
      simp only [Bind.bind, Except.bind] at h
      exact Except.noConfusion h
    | ok u =>
      cases u
      rw [hcs] at h
      simp only [Bind.bind, Except.bind] at h
      rcases List.mem_cons.mp hb with h1 | h1
      · subst h1
        exact checkSuccessors_ok blocks _ hcs succ hsucc
      · exact ih h b h1 succ hsucc

/-- The successor check only ever fails with a dangling label. -/
theorem checkSuccessors_err (blocks : List Block) : ∀ (succs : List String) (e : CErr),
    checkSuccessors blocks succs = .error e → ∃ l, e = .danglingLabel l := by
  intro succs
  induction succs with
  | nil => intro e h; rw [checkSuccessors] at h; exact Except.noConfusion h
  | cons x xs ih =>
    intro e h
    rw [checkSuccessors] at h
    by_cases hex : blockExists blocks x = true
    · rw [if_pos hex] at h
      exact ih e h
    · rw [if_neg hex] at h
      injection h with h
      exact ⟨x, h.symm⟩

/-- The post-pass only ever fails with a dangling label. -/
theorem checkAllBlocks_err (blocks : List Block) : ∀ (bs : List Block) (e : CErr),
    checkAllBlocks blocks bs = .error e → ∃ l, e = .danglingLabel l := by
  intro bs
  induction bs with
  | nil => intro e h; rw [checkAllBlocks] at h; exact Except.noConfusion h
  | cons x xs ih =>
    intro e h
    rw [checkAllBlocks] at h
    cases hcs : checkSuccessors blocks x.successors with
    | error e2 =>
      rw [hcs] at h
      simp only [Bind.bind, Except.bind] at h
      injection h with h
      subst h
      exact checkSuccessors_err blocks _ e2 hcs
    | ok u =>
      cases u
      rw [hcs] at h
      simp only [Bind.bind, Except.bind] at h
      exact ih e h

/-- The finalized block list keeps the accumulated labels. -/
theorem finalize_labels (s : LoopSt) :
    (finalizeBlocks s).map Block.label =
      s.blocks.map Block.label ++ [s.currentBlock.label] := by
  rw [finalizeBlocks]
  cases s.blockTerminated <;> simp [pushInstr]

/-- The labels of a successfully compiled function are distinct. -/
theorem compileFunction_labels_nodup (d : Definition) (m : List String)
    (cs : Constants) (F : Func) (cs' : Constants)
    (h : compileFunction d m cs = .ok (F, cs')) :
    (F.blocks.map Block.label).Nodup := by
  obtain ⟨s, hs, hchk, hF, hcs⟩ := compileFunction_parts d m cs F cs' h
  have hInv := compileLines_inv m d.lines _ s hs (loopInv_init d cs)
  obtain ⟨-, -, -, -, -, hnodup, -, -⟩ := hInv
  have : F.blocks = finalizeBlocks s := by rw [hF]
  rw [this, finalize_labels]
  exact hnodup

/-- Among blocks with distinct labels, a resolvable successor matches
exactly one block. -/
theorem countP_label_eq_one : ∀ (blocks : List Block) (succ : String),
    (blocks.map Block.label).Nodup → blockExists blocks succ = true →
    blocks.countP (fun b2 => b2.label == succ) = 1 := by
  intro blocks
  induction blocks with
  | nil => intro succ _ hex; exact absurd hex (by simp [blockExists])
  | cons x xs ih =>
    intro succ hnd hex
    simp only [List.map_cons, List.nodup_cons] at hnd
    obtain ⟨hxnot, hnd⟩ := hnd
    rw [List.countP_cons]
    by_cases hx : (x.label == succ) = true
    · have hxeq : x.label = succ := beq_iff_eq.mp hx
      rw [if_pos hx]
      have hzero : xs.countP (fun b2 => b2.label == succ) = 0 := by
        rw [List.countP_eq_zero]
        intro b hb hbeq
        have hbeq2 : b.label = succ := beq_iff_eq.mp hbeq
        apply hxnot
        rw [hxeq, ← hbeq2]
        exact List.mem_map.mpr ⟨b, hb, rfl⟩
      rw [hzero]
    · rw [if_neg hx]
      have hex2 : blockExists xs succ = true := by
        rw [blockExists] at hex ⊢
        rcases List.any_eq_true.mp hex with ⟨b, hb, hbeq⟩
        rcases List.mem_cons.mp hb with h1 | h1
        · subst h1; exact absurd hbeq hx
        · exact List.any_eq_true.mpr ⟨b, h1, hbeq⟩
      simpa using ih succ hnd hex2

/-- C7: after a function compiles, every successor label on any of its
blocks equals the label of exactly one block of that function; if the
built blocks contain a successor naming no block, compilation fails with
`DanglingLabel` instead of returning a Function IR. -/
theorem claim_C7 (d : Definition) (m : List String) (cs : Constants) :
    (∀ (F : Func) (cs' : Constants), compileFunction d m cs = .ok (F, cs') →
      labelsResolved F = true) ∧
    (∀ s : LoopSt, compileLines m d.lines (initLoopSt d cs) = .ok s →
      hasDangling (finalizeBlocks s) = true →
      ∃ l, compileFunction d m cs = .error (.danglingLabel l)) := by
  constructor
  · intro F cs' h
    obtain ⟨s, hs, hchk, hF, hcs⟩ := compileFunction_parts d m cs F cs' h
    have hnodup := compileFunction_labels_nodup d m cs F cs' h
    have hblocks : F.blocks = finalizeBlocks s := by rw [hF]
    rw [labelsResolved, List.all_eq_true]
    intro b hb
    rw [List.all_eq_true]
    intro succ hsucc
    have hex : blockExists F.blocks succ = true := by
      rw [hblocks]
      exact checkAllBlocks_ok _ _ hchk b (by rw [← hblocks]; exact hb) succ hsucc
    have := countP_label_eq_one F.blocks succ hnodup hex
    simp [this]
  · intro s hs hdang
    cases hchk : checkAllBlocks (finalizeBlocks s) (finalizeBlocks s) with
    | ok u =>
      exfalso
      cases u
      rw [hasDangling] at hdang
      rcases List.any_eq_true.mp hdang with ⟨b, hb, hbany⟩
      rcases List.any_eq_true.mp hbany with ⟨succ, hsucc, hnex⟩
      have := checkAllBlocks_ok _ _ hchk b hb succ hsucc
      rw [this] at hnex
      exact absurd hnex (by simp)
    | error e =>
      obtain ⟨l, hl⟩ := checkAllBlocks_err _ _ e hchk
      subst hl
      refine ⟨l, ?_⟩
      rw [compileFunction, hs]
      simp only [Bind.bind, Except.bind]
      rw [hchk]

/-- C7, witness: the resolution property on a branch-containing compiled
function, and the failure direction on a function branching to a label
that names no block. -/
theorem claim_C7_witness :
    labelsResolved
      { identifier := "p", inTypes := [], outType := "u8",
        blocks := [{ label := "init", instructions := [["BR", "1", "a", "b"]],
                     successors := ["a", "b"] },
                   { label := "a", instructions := [["RET", "1"]], successors := [] },
                   { label := "b", instructions := [["RET", "2"]], successors := [] }],
        locals := [] } = true ∧
    (∃ l, compileFunction exC7dangling ["q"] ⟨[], []⟩ = .error (.danglingLabel l)) := by
  constructor
  · exact (claim_C7 exC7def ["p"] ⟨[], []⟩).1 _ ⟨[], []⟩ (by decide)
  · exact (claim_C7 exC7dangling ["q"] ⟨[], []⟩).2
      { blocks := [{ label := "init", instructions := [["BR", "1", "a", "nope"]],
                     successors := ["a", "nope"] }],
        currentBlock := { label := "a", instructions := [["RET", "1"]], successors := [] },
        hasPrevBlock := true, blockTerminated := true, visitedLabels := ["a"],
        cst := { registerCounter := 0, locals := [],
                 constants := { data := [], symbols := [] } } }
      (by decide) (by decide)

/-! Claim C8: label uniqueness, remapping and DuplicateLabel. -/

/-- C8: a label definition whose remapped name was already used fails
with `DuplicateLabel` naming it; a label literally named `init` is
remapped to `init1` before being recorded and used as the new block's
label; compiled functions have pairwise distinct block labels; and two
labels both named `a` fail with `DuplicateLabel("a")`. -/
theorem claim_C8 :
    (∀ (defMap : List String) (v : String) (rest : List Line) (s : LoopSt),
      (if v = "init" then "init1" else v) ∈ s.visitedLabels →
      compileLines defMap (Line.labelDef v :: rest) s =
        .error (.duplicateLabel (if v = "init" then "init1" else v))) ∧
    (∀ (defMap : List String) (rest : List Line) (s : LoopSt),
      "init1" ∉ s.visitedLabels → (!s.blockTerminated && s.hasPrevBlock) = false →
      compileLines defMap (Line.labelDef "init" :: rest) s =
        compileLines defMap rest
          { blocks := s.blocks ++ [s.currentBlock], currentBlock := Block.new "init1",
            hasPrevBlock := true, blockTerminated := false,
            visitedLabels := s.visitedLabels ++ ["init1"], cst := s.cst }) ∧
    (∀ (d : Definition) (m : List String) (cs : Constants) (F : Func) (cs' : Constants),
      compileFunction d m cs = .ok (F, cs') → (F.blocks.map Block.label).Nodup) ∧
    compileFunction exC8def ["r"] ⟨[], []⟩ = .error (.duplicateLabel "a") := by
  refine ⟨?_, ?_, ?_, ?_⟩
  · intro defMap v rest s hdup
    rw [compileLines, if_pos hdup]
  · intro defMap rest s hdup hguard
    rw [compileLines]
    rw [show (if ("init" : String) = "init" then "init1" else "init") = "init1" from rfl]
    rw [if_neg hdup, if_neg (by rw [hguard]; simp)]
  · intro d m cs F cs' h
    exact compileFunction_labels_nodup d m cs F cs' h
  · decide

/-- C8, witness: the duplicate error at a concrete state, the `init`
remap at a concrete state, and distinct labels on a concrete compiled
function. -/
theorem claim_C8_witness :
    compileLines [] [Line.labelDef "x"]
      { blocks := [Block.new "init"], currentBlock := Block.new "x",
        hasPrevBlock := true, blockTerminated := true, visitedLabels := ["x"],
        cst := { registerCounter := 0, locals := [],
                 constants := { data := [], symbols := [] } } } =
      .error (.duplicateLabel "x") ∧
    compileLines [] [Line.labelDef "init"]
      { blocks := [], currentBlock := Block.new "init",
        hasPrevBlock := false, blockTerminated := false, visitedLabels := [],
        cst := { registerCounter := 0, locals := [],
                 constants := { data := [], symbols := [] } } } =
      compileLines [] []
        { blocks := [Block.new "init"], currentBlock := Block.new "init1",
          hasPrevBlock := true, blockTerminated := false, visitedLabels := ["init1"],
          cst := { registerCounter := 0, locals := [],
                   constants := { data := [], symbols := [] } } } ∧
    (({ identifier := "h", inTypes := [], outType := "u8",
        blocks := [{ label := "init", instructions := [["RET", "1"]], successors := [] },
                   { label := "next", instructions := [["RET", "2"]], successors := [] }],
        locals := [] } : Func).blocks.map Block.label).Nodup := by
  refine ⟨?_, ?_, ?_⟩
  · exact claim_C8.1 [] "x" [] _ (by decide)
  · exact claim_C8.2.1 [] [] _ (by decide) rfl
  · exact claim_C8.2.2.1 exC2okdef ["h"] ⟨[], []⟩ _ ⟨[], []⟩ (by decide)

/-! Claim C6: pointer assignment versus dereferenced assignment. -/

/-- C6: lowering `L <- e` is literally the same computation as lowering
the dereferenced assignment whose lvalue node is `derefLvalue{value:L}`
— identical instructions, local-slot registrations and register
allocations from any same starting state; the write path of that lvalue
emits exactly `derefDepth L` LOAD instructions, one fewer than the
dereference levels of the written lvalue `*L`. -/
theorem claim_C6 (defMap : List String) (L : Lvalue) (e : Expr) (c : CSt) (b : Block) :
    compilePtrAssignment defMap L e c b =
      compileAssignment defMap (.deref L) e c b ∧
    ∃ new, (compileDerefLvalue c L b).2.2.instructions = b.instructions ++ new ∧
      new.length = derefDepth L ∧ derefDepth (.deref L) = derefDepth L + 1 ∧
      ∀ i ∈ new, i.head? = some "LOAD" := by
  constructor
  · rw [compilePtrAssignment, compileAssignment]
  · obtain ⟨-, -, new, hnew, -, hlen, hload⟩ := compileDerefLvalue_emits L c b
    exact ⟨new, hnew, hlen, rfl, hload⟩

/-! Claim C10: program compilation and the entry point. -/

/-- Successful program compilation decomposes into the duplicate check,
compiling every definition, and assembly with `find?` of `main`. -/
theorem compileProgram_parts (ast : Ast) (P : Program)
    (h : compileProgram ast = .ok P) :
    ∃ defMap fs cs, buildDefMap ast.definitions [] = .ok defMap ∧
      compileAll defMap ast.definitions ⟨[], []⟩ = .ok (fs, cs) ∧
      P = { functions := fs,
            entryPoint := fs.find? (fun func => func.identifier == "main"),
            constants := cs.compile } := by
  rw [compileProgram] at h
  cases hbd : buildDefMap ast.definitions [] with
  | error e =>
    rw [hbd] at h
    simp only [Bind.bind, Except.bind] at h
    exact Except.noConfusion h
  | ok defMap =>
    rw [hbd] at h
    simp only [Bind.bind, Except.bind] at h
    cases hca : compileAll defMap ast.definitions ⟨[], []⟩ with
    | error e =>
      rw [hca] at h
      exact Except.noConfusion h
    | ok res =>
      obtain ⟨fs, cs⟩ := res
      rw [hca] at h
      injection h with h
      exact ⟨defMap, fs, cs, rfl, hca, h.symm⟩

/-- The definition map is the identifiers in order, and is duplicate
free. -/
theorem buildDefMap_spec : ∀ (defs : List Definition) (acc out : List String),
    buildDefMap defs acc = .ok out →
    out = acc ++ defs.map Definition.identifier ∧ (acc.Nodup → out.Nodup) := by
  intro defs
  induction defs with
  | nil =>
    intro acc out h
    rw [buildDefMap] at h
    injection h with h
    subst h
    exact ⟨by simp, fun h => h⟩
  | cons d rest ih =>
    intro acc out h
    rw [buildDefMap] at h
    by_cases hmem : d.identifier ∈ acc
    · rw [if_pos hmem] at h
      exact absurd h (by simp)
    · rw [if_neg hmem] at h
      obtain ⟨hout, hnd⟩ := ih (acc ++ [d.identifier]) out h
      constructor
      · rw [hout]
        simp
      · intro hacc
        apply hnd
        rw [List.nodup_append]
        refine ⟨hacc, List.nodup_singleton _, ?_⟩
        intro a ha hb
        simp only [List.mem_singleton] at hb
        subst hb
        exact hmem ha
/-- A compiled function keeps its definition's identifier. -/
theorem compileFunction_ident (d : Definition) (m : List String) (cs : Constants)
    (F : Func) (cs' : Constants) (h : compileFunction d m cs = .ok (F, cs')) :
    F.identifier = d.identifier := by
  obtain ⟨s, -, -, hF, -⟩ := compileFunction_parts d m cs F cs' h
  rw [hF]

/-- Compiling all definitions preserves the identifier list. -/
theorem compileAll_spec (m : List String) : ∀ (defs : List Definition) (cs : Constants)
    (fs : List Func) (cs' : Constants),
    compileAll m defs cs = .ok (fs, cs') →
    fs.map Func.identifier = defs.map Definition.identifier := by
  intro defs
  induction defs with
  | nil =>
    intro cs fs cs' h
    rw [compileAll] at h
    simp only [Except.ok.injEq, Prod.mk.injEq] at h
    obtain ⟨hfs, -⟩ := h
    subst hfs
    rfl
  | cons d rest ih =>
    intro cs fs cs' h
    rw [compileAll] at h
    cases h1 : compileFunction d m cs with
    | error e =>
      rw [h1] at h
      simp only [Bind.bind, Except.bind] at h
      exact Except.noConfusion h
    | ok res1 =>
      obtain ⟨F, cs1⟩ := res1
      rw [h1] at h
      simp only [Bind.bind, Except.bind] at h
      cases h2 : compileAll m rest cs1 with
      | error e =>
        rw [h2] at h
        exact Except.noConfusion h
      | ok res2 =>
        obtain ⟨fs2, cs2⟩ := res2
        rw [h2] at h
        simp only [Except.ok.injEq, Prod.mk.injEq] at h
        obtain ⟨hfs, -⟩ := h
        subst hfs
        simp only [List.map_cons]
        rw [compileFunction_ident d m cs F cs1 h1, ih cs1 fs2 cs2 h2]

/-- C10: the entry point of a compiled program is the first compiled
function named `main` — that of the unique definition named `main` when
one exists — and is simply unset, with the Program IR still returned,
when no definition is named `main`. -/
theorem claim_C10 (ast : Ast) (P : Program) (h : compileProgram ast = .ok P) :
    P.entryPoint = P.functions.find? (fun func => func.identifier == "main") ∧
    P.functions.map Func.identifier = ast.definitions.map Definition.identifier ∧
    ((∀ d ∈ ast.definitions, d.identifier ≠ "main") → P.entryPoint = none) ∧
    ((∃ d ∈ ast.definitions, d.identifier = "main") →
      ∃ F, P.entryPoint = some F ∧ F.identifier = "main" ∧ F ∈ P.functions ∧
        ∀ F2 ∈ P.functions, F2.identifier = "main" → F2 = F) := by
  obtain ⟨defMap, fs, csf, hbd, hca, hP⟩ := compileProgram_parts ast P h
  have hids : fs.map Func.identifier = ast.definitions.map Definition.identifier :=
    compileAll_spec defMap ast.definitions ⟨[], []⟩ fs csf hca
  have hPf : P.functions = fs := by rw [hP]
  have hPe : P.entryPoint = fs.find? (fun func => func.identifier == "main") := by
    rw [hP]
  refine ⟨by rw [hPe, hPf], by rw [hPf, hids], ?_, ?_⟩
  · intro hnone
    rw [hPe, List.find?_eq_none]
    intro f hf
    have hfin : f.identifier ∈ ast.definitions.map Definition.identifier := by
      rw [← hids]
      exact List.mem_map.mpr ⟨f, hf, rfl⟩
    rcases List.mem_map.mp hfin with ⟨d, hd, hdid⟩
    intro hbeq
    exact hnone d hd (by rw [hdid, beq_iff_eq.mp hbeq])
  · intro hex
    obtain ⟨d, hd, hdm⟩ := hex
    have hmem : "main" ∈ fs.map Func.identifier := by
      rw [hids]
      exact List.mem_map.mpr ⟨d, hd, hdm⟩
    rcases List.mem_map.mp hmem with ⟨F, hF, hFid⟩
    have hsome : (fs.find? (fun func => func.identifier == "main")).isSome :=
      List.find?_isSome.mpr ⟨F, hF, beq_iff_eq.mpr hFid⟩
    cases hfind : fs.find? (fun func => func.identifier == "main") with
    | none => rw [hfind] at hsome; exact absurd hsome (by simp)
    | some F0 =>
      have hp := List.find?_some hfind
      have hF0id : F0.identifier = "main" := beq_iff_eq.mp hp
      have hF0mem : F0 ∈ fs := List.mem_of_find?_eq_some hfind
      obtain ⟨hout, hnd⟩ := buildDefMap_spec ast.definitions [] defMap hbd
      have hdefsnd : (ast.definitions.map Definition.identifier).Nodup := by
        have := hnd List.nodup_nil
        rw [hout] at this
        simpa using this
      have hfsnd : (fs.map Func.identifier).Nodup := by rw [hids]; exact hdefsnd
      refine ⟨F0, by rw [hPe, hfind], hF0id, by rw [hPf]; exact hF0mem, ?_⟩
      intro F2 hF2 hF2id
      exact List.inj_on_of_nodup_map hfsnd (by rw [hPf] at hF2; exact hF2)
        hF0mem (by rw [hF2id, hF0id])

/-- C10, witness: the claim applied to a one-function program whose only
definition is `main`. -/
theorem claim_C10_witness :
    exC10prog.entryPoint =
      exC10prog.functions.find? (fun func => func.identifier == "main") ∧
    exC10prog.functions.map Func.identifier =
      exC10ast.definitions.map Definition.identifier ∧
    ((∀ d ∈ exC10ast.definitions, d.identifier ≠ "main") →
      exC10prog.entryPoint = none) ∧
    ((∃ d ∈ exC10ast.definitions, d.identifier = "main") →
      ∃ F, exC10prog.entryPoint = some F ∧ F.identifier = "main" ∧
        F ∈ exC10prog.functions ∧
        ∀ F2 ∈ exC10prog.functions, F2.identifier = "main" → F2 = F) :=
  claim_C10 exC10ast exC10prog (by decide)

end Ferret
